import Mathlib

/-!
# Verification of the ROC evaluation / calibration engine (`plotroc.py`)

This file gives a shallow embedding, over `ℚ`, of the numerical core of the
repository's `plotroc.py`: the reliability-curve binner, the Neyman-Pearson
operating-point scan, partial AUC, the Youden-J / best-PPV / best-NPV scans,
and the pool-adjacent-violators (PAV) isotonic solver.  Python floats are
modelled as rationals (every arithmetic operation performed by the code on the
inputs considered here is exact field arithmetic); the one place where IEEE
`0/0 = NaN` matters (score normalisation with constant scores) is modelled
explicitly with `Option ℚ`, `none` playing the role of NaN, whose ordered
comparisons are all false exactly as for NaN.  Python functions that can fall
off the end of the function body (returning `None`) or raise are modelled with
`Option` / `Except`.
-/

namespace PlotRoc

/-! ## List helpers -/

/-- `getD` through `map`, with independent defaults. -/
theorem getD_map_of_lt {α β : Type} (f : α → β) :
    ∀ (l : List α) (i : ℕ), i < l.length →
      ∀ (d : β) (d' : α), (l.map f).getD i d = f (l.getD i d')
  | [], i, h => by simp at h
  | a :: l, 0, _ => by intro d d'; rfl
  | a :: l, i + 1, h => by
      intro d d'
      simpa using getD_map_of_lt f l i (by simpa using h) d d'

theorem getD_append_left {α : Type} :
    ∀ (l₁ l₂ : List α) (i : ℕ), i < l₁.length →
      ∀ (d : α), (l₁ ++ l₂).getD i d = l₁.getD i d
  | [], _, i, h => by simp at h
  | a :: l₁, l₂, 0, _ => by intro d; rfl
  | a :: l₁, l₂, i + 1, h => by
      intro d
      simpa using getD_append_left l₁ l₂ i (by simpa using h) d

/-- Adjacent entries of a `Chain' (· ≤ ·)` list, through `getD`. -/
theorem chain'_le_getD {l : List ℚ} (h : List.Chain' (· ≤ ·) l) :
    ∀ i : ℕ, i + 1 < l.length → l.getD i 0 ≤ l.getD (i + 1) 0 := by
  induction l with
  | nil => intro i hi; simp at hi
  | cons a l ih =>
    intro i hi
    match l, i with
    | b :: l', 0 =>
      exact (List.chain'_cons.mp h).1
    | b :: l', i + 1 =>
      have := ih (List.chain'_cons.mp h).2 i (by simpa using hi)
      simpa using this
    | [], i => simp at hi

/-! ## ReliabilityCurveBinner (`reliability_curve`) -/

/-- Minimum of a list, as `score.min()` on a nonempty numpy array. -/
def listMin : List ℚ → ℚ
  | [] => 0
  | x :: xs => xs.foldl min x

/-- Maximum of a list, as `score.max()` on a nonempty numpy array. -/
def listMax : List ℚ → ℚ
  | [] => 0
  | x :: xs => xs.foldl max x

theorem foldl_min_le_init : ∀ (l : List ℚ) (a : ℚ), l.foldl min a ≤ a
  | [], a => le_refl a
  | x :: l, a => le_trans (foldl_min_le_init l (min a x)) (min_le_left a x)

theorem foldl_min_le_mem : ∀ (l : List ℚ) (a b : ℚ), b ∈ l → l.foldl min a ≤ b
  | [], _, b, h => by simp at h
  | x :: l, a, b, h => by
      rcases List.mem_cons.mp h with h | h
      · subst h; exact le_trans (foldl_min_le_init l (min a b)) (min_le_right a b)
      · exact foldl_min_le_mem l (min a x) b h

theorem listMin_le_mem {l : List ℚ} {b : ℚ} (h : b ∈ l) : listMin l ≤ b := by
  cases l with
  | nil => simp at h
  | cons x xs =>
    rcases List.mem_cons.mp h with h | h
    · subst h; exact foldl_min_le_init xs b
    · exact foldl_min_le_mem xs x b h

theorem le_foldl_max_init : ∀ (l : List ℚ) (a : ℚ), a ≤ l.foldl max a
  | [], a => le_refl a
  | x :: l, a => le_trans (le_max_left a x) (le_foldl_max_init l (max a x))

theorem mem_le_foldl_max : ∀ (l : List ℚ) (a b : ℚ), b ∈ l → b ≤ l.foldl max a
  | [], _, b, h => by simp at h
  | x :: l, a, b, h => by
      rcases List.mem_cons.mp h with h | h
      · subst h; exact le_trans (le_max_right a b) (le_foldl_max_init l (max a b))
      · exact mem_le_foldl_max l (max a x) b h

theorem mem_le_listMax {l : List ℚ} {b : ℚ} (h : b ∈ l) : b ≤ listMax l := by
  cases l with
  | nil => simp at h
  | cons x xs =>
    rcases List.mem_cons.mp h with h | h
    · subst h; exact le_foldl_max_init xs b
    · exact mem_le_foldl_max xs x b h

/-- Score normalisation step of `reliability_curve`:
`y_score = (y_score - y_score.min()) / (y_score.max() - y_score.min())`.
When all scores are equal the divisor is `0` and every entry becomes the
IEEE NaN `0/0`, modelled as `none`; otherwise the exact rational value. -/
def normScores (y_score : List ℚ) (normalize : Bool) : List (Option ℚ) :=
  match normalize with
  | true =>
      y_score.map (fun s =>
        if listMax y_score - listMin y_score = 0 then none
        else some ((s - listMin y_score) / (listMax y_score - listMin y_score)))
  | false => y_score.map some

/-- Membership of a (possibly NaN) normalised score in bin `i`: the code tests
`threshold - bin_width/2 < s ≤ threshold + bin_width/2` with
`threshold = i·w + w/2`, `w = 1/bins`; both comparisons are false for NaN. -/
def inBin (bins i : ℕ) (s : Option ℚ) : Bool :=
  match s with
  | none => false
  | some q =>
      decide ((i : ℚ) * (1 / (bins : ℚ)) < q) &&
      decide (q ≤ ((i : ℚ) + 1) * (1 / (bins : ℚ)))

/-- The samples (normalised score, label) selected by `bin_idx` for bin `i`. -/
def binSel (y_true y_score : List ℚ) (bins : ℕ) (normalize : Bool) (i : ℕ) :
    List (Option ℚ × ℚ) :=
  ((normScores y_score normalize).zip y_true).filter (fun p => inBin bins i p.1)

/-- Value of a selected normalised score (selected entries are never `none`). -/
def optVal : Option ℚ → ℚ
  | none => 0
  | some q => q

/-- One cell of the reliability curve: `(mean bin score, mean bin label)`,
or `(0, 0)` when `np.count_nonzero(bin_idx)` is zero. -/
def cellOf (y_true y_score : List ℚ) (bins : ℕ) (normalize : Bool) (i : ℕ) :
    ℚ × ℚ :=
  if (binSel y_true y_score bins normalize i).length = 0 then ((0 : ℚ), (0 : ℚ))
  else (((binSel y_true y_score bins normalize i).map (fun p => optVal p.1)).sum /
          ((binSel y_true y_score bins normalize i).length : ℚ),
        ((binSel y_true y_score bins normalize i).map Prod.snd).sum /
          ((binSel y_true y_score bins normalize i).length : ℚ))

/-- Shallow embedding of `reliability_curve(y_true, y_score, bins, normalize)`:
returns `(y_score_bin_mean, empirical_prob_pos)`; empty cells output `0`. -/
def reliability_curve (y_true y_score : List ℚ) (bins : ℕ) (normalize : Bool) :
    List ℚ × List ℚ :=
  let outs := (List.range bins).map (cellOf y_true y_score bins normalize)
  (outs.map Prod.fst, outs.map Prod.snd)

theorem getD_range {n i : ℕ} (h : i < n) (d : ℕ) : (List.range n).getD i d = i := by
  rw [List.getD_eq_getElem?_getD, List.getElem?_range h]
  rfl

theorem getD_mem_of_lt {α : Type} {l : List α} {i : ℕ} (h : i < l.length) (d : α) :
    l.getD i d ∈ l := by
  rw [List.getD_eq_getElem?_getD, List.getElem?_eq_getElem h]
  exact List.getElem_mem h

theorem foldl_min_replicate (c : ℚ) : ∀ k : ℕ, (List.replicate k c).foldl min c = c
  | 0 => rfl
  | k + 1 => by
      rw [List.replicate_succ, List.foldl_cons, min_self]
      exact foldl_min_replicate c k

theorem foldl_max_replicate (c : ℚ) : ∀ k : ℕ, (List.replicate k c).foldl max c = c
  | 0 => rfl
  | k + 1 => by
      rw [List.replicate_succ, List.foldl_cons, max_self]
      exact foldl_max_replicate c k

theorem listMin_replicate {n : ℕ} (hn : 0 < n) (c : ℚ) :
    listMin (List.replicate n c) = c := by
  obtain ⟨k, rfl⟩ := Nat.exists_eq_succ_of_ne_zero hn.ne'
  rw [List.replicate_succ]
  exact foldl_min_replicate c k

theorem listMax_replicate {n : ℕ} (hn : 0 < n) (c : ℚ) :
    listMax (List.replicate n c) = c := by
  obtain ⟨k, rfl⟩ := Nat.exists_eq_succ_of_ne_zero hn.ne'
  rw [List.replicate_succ]
  exact foldl_max_replicate c k

theorem zip_replicate_left {α β : Type} (a : α) :
    ∀ (l : List β), (List.replicate l.length a).zip l = l.map (fun b => (a, b))
  | [] => rfl
  | b :: l => by
      rw [List.length_cons, List.replicate_succ, List.zip_cons_cons, List.map_cons,
        zip_replicate_left a l]

/-- With `bins = 0` the Python code divides by zero building `bin_width`;
every reachable call has `bins ≥ 1`.  In ℚ, `1/0 = 0` and `inBin 0 i s` is
always false, which we never rely on. -/
theorem inBin_some_iff (bins i : ℕ) (q : ℚ) :
    inBin bins i (some q) = true ↔
      ((i : ℚ) * (1 / (bins : ℚ)) < q ∧ q ≤ ((i : ℚ) + 1) * (1 / (bins : ℚ))) := by
  simp [inBin]

/-- C10 helper: the minimum score normalises to exactly `0`. -/
theorem normScores_min_eq_zero {y_score : List ℚ} {j : ℕ}
    (hne : listMin y_score ≠ listMax y_score)
    (hj : j < y_score.length)
    (hjmin : y_score.getD j 0 = listMin y_score) :
    (normScores y_score true).getD j none = some 0 := by
  have hle : listMin y_score ≤ listMax y_score := by
    have hmem : y_score.getD j 0 ∈ y_score := getD_mem_of_lt hj 0
    exact le_trans (listMin_le_mem hmem) (mem_le_listMax hmem)
  have hden : listMax y_score - listMin y_score ≠ 0 := by
    intro h0
    exact hne (by linarith [sub_eq_zero.mp h0])
  have hmap := getD_map_of_lt
    (fun s => if listMax y_score - listMin y_score = 0 then (none : Option ℚ)
      else some ((s - listMin y_score) / (listMax y_score - listMin y_score)))
    y_score j hj none 0
  show (y_score.map _).getD j none = some 0
  rw [hmap, hjmin, if_neg hden, sub_self, zero_div]

/-- C10: with `normalize=True` and non-constant scores, every sample holding
the minimum score is normalised to exactly `0`, and since each bin's
membership interval `(i·w, (i+1)·w]` is open at its lower edge (the first bin
being `(0, 1/bins]`), such a sample is excluded from every bin. -/
theorem reliability_curve_min_score_excluded
    (y_score : List ℚ) (bins j : ℕ)
    (hne : listMin y_score ≠ listMax y_score)
    (hj : j < y_score.length)
    (hjmin : y_score.getD j 0 = listMin y_score) :
    (normScores y_score true).getD j none = some 0 ∧
      ∀ i, i < bins → inBin bins i ((normScores y_score true).getD j none) = false := by
  have h0 := normScores_min_eq_zero hne hj hjmin
  refine ⟨h0, fun i _ => ?_⟩
  rw [h0]
  simp only [inBin, Bool.and_eq_false_iff, decide_eq_false_iff_not, not_lt]
  left
  positivity

theorem reliability_curve_min_score_excluded_witness :
    (normScores [0, 1] true).getD 0 none = some 0 ∧
      ∀ i, i < 10 → inBin 10 i ((normScores [0, 1] true).getD 0 none) = false :=
  reliability_curve_min_score_excluded [0, 1] 10 0 (by decide) (by decide) (by decide)

theorem map_const_replicate {α β : Type} (b : β) :
    ∀ l : List α, l.map (fun _ => b) = List.replicate l.length b
  | [] => rfl
  | a :: l => by rw [List.map_cons, List.length_cons, List.replicate_succ,
      map_const_replicate b l]

theorem filter_eq_nil_of_false {α : Type} {p : α → Bool} :
    ∀ {l : List α}, (∀ a ∈ l, p a = false) → l.filter p = []
  | [], _ => rfl
  | a :: l, h => by
      rw [List.filter_cons, h a (List.mem_cons_self a l)]
      exact filter_eq_nil_of_false (fun b hb => h b (List.mem_cons_of_mem a hb))

theorem filter_eq_self_of_true {α : Type} {p : α → Bool} :
    ∀ {l : List α}, (∀ a ∈ l, p a = true) → l.filter p = l
  | [], _ => rfl
  | a :: l, h => by
      rw [List.filter_cons, h a (List.mem_cons_self a l)]
      simpa using filter_eq_self_of_true (fun b hb => h b (List.mem_cons_of_mem a hb))

/-- With all scores equal, `normalize=True` computes `(c-c)/(c-c) = 0/0`,
i.e. NaN, for every sample. -/
theorem normScores_replicate_true {n : ℕ} (hn : 0 < n) (c : ℚ) :
    normScores (List.replicate n c) true = List.replicate n none := by
  show (List.replicate n c).map _ = _
  rw [List.map_replicate, listMin_replicate hn, listMax_replicate hn, sub_self,
    if_pos rfl]

/-- With all scores equal and `normalize=True`, no sample falls in any bin. -/
theorem binSel_replicate_true (y_true : List ℚ) {n : ℕ} (hn : 0 < n) (c : ℚ)
    (bins i : ℕ) : binSel y_true (List.replicate n c) bins true i = [] := by
  unfold binSel
  rw [normScores_replicate_true hn c]
  refine filter_eq_nil_of_false (fun p hp => ?_)
  have h1 : p.1 ∈ List.replicate n (none : Option ℚ) := (List.of_mem_zip hp).1
  rw [List.eq_of_mem_replicate h1]
  rfl

/-- With all scores equal and `normalize=True`, every bin is empty and both
output arrays are identically zero (no exception, no NaN in the outputs). -/
theorem reliability_curve_replicate_true (y_true : List ℚ) {n : ℕ} (hn : 0 < n)
    (c : ℚ) (bins : ℕ) :
    reliability_curve y_true (List.replicate n c) bins true =
      (List.replicate bins 0, List.replicate bins 0) := by
  unfold reliability_curve
  have houts : (List.range bins).map (cellOf y_true (List.replicate n c) bins true)
      = List.replicate bins ((0 : ℚ), (0 : ℚ)) := by
    have : ∀ i ∈ List.range bins,
        cellOf y_true (List.replicate n c) bins true i = ((0 : ℚ), (0 : ℚ)) := by
      intro i _
      unfold cellOf
      simp only [binSel_replicate_true y_true hn c bins i, List.length_nil]
      rfl
    rw [List.map_congr_left this, map_const_replicate, List.length_range]
  simp only [houts, List.map_replicate]

/-- C4 counterexample: all scores identical (`y_score = [1/2, 1/2]`) under the
default `normalize=True`.  Normalisation computes `0/0` (NaN) for every
sample, NaN falls in no bin, so *no* sample is placed in *any* bin — the
claim asserts every sample lands in exactly one bin — and both outputs are
all-zero arrays. -/
theorem reliability_curve_constant_norm_counterexample :
    (∀ i, i < 10 → binSel [0, 1] [1/2, 1/2] 10 true i = []) ∧
      reliability_curve [0, 1] [1/2, 1/2] 10 true =
        (List.replicate 10 0, List.replicate 10 0) := by
  have h2 : ([1/2, 1/2] : List ℚ) = List.replicate 2 (1/2) := rfl
  constructor
  · intro i _
    rw [h2]
    exact binSel_replicate_true [0, 1] (by norm_num) (1/2) 10 i
  · rw [h2]
    exact reliability_curve_replicate_true [0, 1] (by norm_num) (1/2) 10

/-- `getD` on the reliability-curve output arrays is the corresponding cell. -/
theorem reliability_curve_getD (y_true y_score : List ℚ) (bins : ℕ)
    (normalize : Bool) {j : ℕ} (hj : j < bins) :
    (reliability_curve y_true y_score bins normalize).1.getD j 0 =
        (cellOf y_true y_score bins normalize j).1 ∧
      (reliability_curve y_true y_score bins normalize).2.getD j 0 =
        (cellOf y_true y_score bins normalize j).2 := by
  have hlen : j < ((List.range bins).map
      (cellOf y_true y_score bins normalize)).length := by
    simpa using hj
  have hrange : j < (List.range bins).length := by simpa using hj
  unfold reliability_curve
  constructor
  · rw [getD_map_of_lt Prod.fst _ j hlen 0 (0, 0),
      getD_map_of_lt (cellOf y_true y_score bins normalize) _ j hrange (0, 0) 0,
      getD_range hj]
  · rw [getD_map_of_lt Prod.snd _ j hlen 0 (0, 0),
      getD_map_of_lt (cellOf y_true y_score bins normalize) _ j hrange (0, 0) 0,
      getD_range hj]

/-- With `normalize=False` and all scores equal to `c`, the selection for a
bin is everything or nothing according to whether `c` lies in the bin. -/
theorem binSel_replicate_false (y_true : List ℚ) {n : ℕ} (c : ℚ)
    (hlen : y_true.length = n) (bins j : ℕ) :
    binSel y_true (List.replicate n c) bins false j =
      if inBin bins j (some c) then y_true.map (fun t => ((some c : Option ℚ), t))
      else [] := by
  unfold binSel
  have hns : normScores (List.replicate n c) false =
      List.replicate y_true.length (some c) := by
    show (List.replicate n c).map some = _
    rw [List.map_replicate, hlen]
  rw [hns, zip_replicate_left]
  by_cases h : inBin bins j (some c) = true
  · rw [if_pos h]
    refine filter_eq_self_of_true (fun p hp => ?_)
    obtain ⟨t, _, rfl⟩ := List.mem_map.mp hp
    exact h
  · rw [if_neg h, filter_eq_nil_of_false]
    intro p hp
    obtain ⟨t, _, rfl⟩ := List.mem_map.mp hp
    exact Bool.not_eq_true _ ▸ eq_false_of_ne_true h

/-- A score `c ∈ (0,1]` falls in exactly one of the `bins` half-open cells
`(i·w, (i+1)·w]`, namely `i = ⌈c·bins⌉ - 1`. -/
theorem exists_unique_bin {c : ℚ} {bins : ℕ} (hb : 0 < bins) (hc0 : 0 < c)
    (hc1 : c ≤ 1) :
    ∃ i, i < bins ∧ inBin bins i (some c) = true ∧
      ∀ j, inBin bins j (some c) = true → j = i := by
  have hbq : (0 : ℚ) < (bins : ℚ) := by exact_mod_cast hb
  have hx0 : 0 < c * (bins : ℚ) := mul_pos hc0 hbq
  have hxb : c * (bins : ℚ) ≤ (bins : ℚ) := by nlinarith
  have hm1 : 1 ≤ ⌈c * (bins : ℚ)⌉ := Int.ceil_pos.mpr hx0
  have hmb : ⌈c * (bins : ℚ)⌉ ≤ (bins : ℤ) := Int.ceil_le.mpr (by exact_mod_cast hxb)
  have hinterval : ∀ j : ℕ, inBin bins j (some c) = true ↔
      ((j : ℚ) < c * (bins : ℚ) ∧ c * (bins : ℚ) ≤ (j : ℚ) + 1) := by
    intro j
    rw [inBin_some_iff, mul_one_div, mul_one_div, div_lt_iff₀ hbq, le_div_iff₀ hbq]
  have hnn : (0 : ℤ) ≤ ⌈c * (bins : ℚ)⌉ - 1 := by omega
  set i : ℕ := (⌈c * (bins : ℚ)⌉ - 1).toNat with hidef
  have hiz : ((i : ℤ)) = ⌈c * (bins : ℚ)⌉ - 1 := Int.toNat_of_nonneg hnn
  have hicast : (i : ℚ) = ((⌈c * (bins : ℚ)⌉ : ℤ) : ℚ) - 1 := by
    exact_mod_cast congrArg (fun z : ℤ => (z : ℚ)) hiz
  have hi1 : (i : ℚ) < c * (bins : ℚ) := by
    have h := Int.ceil_lt_add_one (c * (bins : ℚ))
    rw [hicast]
    linarith
  have hi2 : c * (bins : ℚ) ≤ (i : ℚ) + 1 := by
    have h := Int.le_ceil (c * (bins : ℚ))
    rw [hicast]
    linarith
  refine ⟨i, by omega, (hinterval i).mpr ⟨hi1, hi2⟩, ?_⟩
  intro j hj
  rw [hinterval] at hj
  obtain ⟨hj1, hj2⟩ := hj
  have h1 : j < i + 1 := by exact_mod_cast lt_of_lt_of_le hj1 hi2
  have h2 : i < j + 1 := by exact_mod_cast lt_of_lt_of_le hi1 hj2
  omega

theorem cellOf_replicate_false_full (y_true : List ℚ) {n : ℕ} (c : ℚ)
    (hn : 0 < n) (hlen : y_true.length = n) {bins i : ℕ}
    (hbin : inBin bins i (some c) = true) :
    cellOf y_true (List.replicate n c) bins false i = (c, y_true.sum / (n : ℚ)) := by
  unfold cellOf
  rw [binSel_replicate_false y_true c hlen bins i, if_pos hbin]
  have hlsel : (y_true.map (fun t => ((some c : Option ℚ), t))).length = n := by
    rw [List.length_map, hlen]
  rw [hlsel, if_neg hn.ne', List.map_map, List.map_map]

  have h1 : ((fun p : Option ℚ × ℚ => optVal p.1) ∘ (fun t : ℚ => ((some c : Option ℚ), t)))
      = fun _ : ℚ => c := rfl
  have h2 : (Prod.snd ∘ (fun t : ℚ => ((some c : Option ℚ), t))) = fun t : ℚ => t := rfl
  rw [h1, h2, map_const_replicate, List.map_id', List.sum_replicate, hlen,
    nsmul_eq_mul, mul_div_cancel_left₀ c (by exact_mod_cast hn.ne' : (n : ℚ) ≠ 0)]

theorem cellOf_replicate_false_empty (y_true : List ℚ) {n : ℕ} (c : ℚ)
    (hlen : y_true.length = n) {bins j : ℕ}
    (hbin : inBin bins j (some c) = false) :
    cellOf y_true (List.replicate n c) bins false j = (0, 0) := by
  have hsel : binSel y_true (List.replicate n c) bins false j = [] := by
    rw [binSel_replicate_false y_true c hlen bins j, if_neg (by simp [hbin])]
  unfold cellOf
  rw [hsel, List.length_nil, if_pos rfl]

/-- C4, amended.  With all scores equal to `c`:
* under the default `normalize=True`, normalisation computes `0/0` (NaN) per
  sample, every bin is empty and both outputs are all-zero arrays — no sample
  is placed in any bin, no exception, outputs NaN-free;
* with `normalize=False` and `0 < c ≤ 1`, every sample lands in exactly one
  bin, that bin outputs the common score `c` and the mean label, and all
  other bins output `0`. -/
theorem reliability_curve_constant_scores_amended
    (y_true : List ℚ) (n bins : ℕ) (c : ℚ)
    (hn : 0 < n) (hb : 0 < bins) (hlen : y_true.length = n) :
    (reliability_curve y_true (List.replicate n c) bins true =
        (List.replicate bins 0, List.replicate bins 0) ∧
      ∀ i, i < bins → binSel y_true (List.replicate n c) bins true i = []) ∧
    (0 < c → c ≤ 1 →
      ∃ i, i < bins ∧
        (binSel y_true (List.replicate n c) bins false i).length = n ∧
        (reliability_curve y_true (List.replicate n c) bins false).1.getD i 0 = c ∧
        (reliability_curve y_true (List.replicate n c) bins false).2.getD i 0 =
          y_true.sum / (n : ℚ) ∧
        ∀ j, j < bins → j ≠ i →
          binSel y_true (List.replicate n c) bins false j = [] ∧
          (reliability_curve y_true (List.replicate n c) bins false).1.getD j 0 = 0 ∧
          (reliability_curve y_true (List.replicate n c) bins false).2.getD j 0 = 0) := by
  refine ⟨⟨reliability_curve_replicate_true y_true hn c bins,
    fun i _ => binSel_replicate_true y_true hn c bins i⟩, ?_⟩
  intro hc0 hc1
  obtain ⟨i, hib, hbin, huniq⟩ := exists_unique_bin hb hc0 hc1
  refine ⟨i, hib, ?_, ?_, ?_, ?_⟩
  · rw [binSel_replicate_false y_true c hlen bins i, if_pos hbin, List.length_map, hlen]
  · rw [(reliability_curve_getD y_true (List.replicate n c) bins false hib).1,
      cellOf_replicate_false_full y_true c hn hlen hbin]
  · rw [(reliability_curve_getD y_true (List.replicate n c) bins false hib).2,
      cellOf_replicate_false_full y_true c hn hlen hbin]
  · intro j hjb hji
    have hfalse : inBin bins j (some c) = false := by
      cases h : inBin bins j (some c) with
      | false => rfl
      | true => exact absurd (huniq j h) hji
    refine ⟨?_, ?_, ?_⟩
    · rw [binSel_replicate_false y_true c hlen bins j, if_neg (by simp [hfalse])]
    · rw [(reliability_curve_getD y_true (List.replicate n c) bins false hjb).1,
        cellOf_replicate_false_empty y_true c hlen hfalse]
    · rw [(reliability_curve_getD y_true (List.replicate n c) bins false hjb).2,
        cellOf_replicate_false_empty y_true c hlen hfalse]

theorem reliability_curve_constant_scores_amended_witness :
    (reliability_curve [0, 1] (List.replicate 2 (1/2)) 10 true =
        (List.replicate 10 0, List.replicate 10 0) ∧
      ∀ i, i < 10 → binSel [0, 1] (List.replicate 2 (1/2)) 10 true i = []) ∧
    (0 < (1/2 : ℚ) → (1/2 : ℚ) ≤ 1 →
      ∃ i, i < 10 ∧
        (binSel [0, 1] (List.replicate 2 (1/2)) 10 false i).length = 2 ∧
        (reliability_curve [0, 1] (List.replicate 2 (1/2)) 10 false).1.getD i 0 = 1/2 ∧
        (reliability_curve [0, 1] (List.replicate 2 (1/2)) 10 false).2.getD i 0 =
          ([0, 1] : List ℚ).sum / (2 : ℚ) ∧
        ∀ j, j < 10 → j ≠ i →
          binSel [0, 1] (List.replicate 2 (1/2)) 10 false j = [] ∧
          (reliability_curve [0, 1] (List.replicate 2 (1/2)) 10 false).1.getD j 0 = 0 ∧
          (reliability_curve [0, 1] (List.replicate 2 (1/2)) 10 false).2.getD j 0 = 0) :=
  reliability_curve_constant_scores_amended [0, 1] 2 10 (1/2)
    (by norm_num) (by norm_num) (by norm_num)

/-! ## OperatingPointSelector: `neyman_pearson`

The Python function initialises `np_tpr = np_thresh = np_fpr = 0.0` but only
`return`s inside the scan loops; when no curve point triggers a `return`, the
function falls off the end and yields `None`.  The embedding returns
`Option`, with `none` for that fall-through. -/

def neyman_pearson (fpr tpr thresh : List ℚ) (min_rate : ℚ) (Se : Bool) :
    Option (ℚ × ℚ × ℚ) :=
  match Se with
  | true =>
      match (List.range tpr.length).find? (fun i => decide (min_rate ≤ tpr.getD i 0)) with
      | some i => some (fpr.getD i 0, tpr.getD i 0, thresh.getD i 0)
      | none => none
  | false =>
      -- scanning `tnr = 1 - fpr`; on a hit at `i = 0` Python's `fpr[i-1]`
      -- wraps to the last element
      match (List.range fpr.length).find? (fun i => decide (1 - fpr.getD i 0 < min_rate)) with
      | some i =>
          some (fpr.getD (if i = 0 then fpr.length - 1 else i - 1) 0,
                tpr.getD (if i = 0 then fpr.length - 1 else i - 1) 0,
                thresh.getD (if i = 0 then fpr.length - 1 else i - 1) 0)
      | none => none

/-- C1: when no curve point satisfies the Neyman-Pearson constraint — all
`tpr < min_rate` in the sensitivity case; `tnr` never below `min_rate` in the
specificity case — `neyman_pearson` returns `None` (the function falls off
the end), *not* the all-zero sentinel `(0.0, 0.0, 0.0)` that the spec
describes and that the initialised-but-unreturned local variables and the
caller's `if th_np:` check clearly intend. -/
theorem neyman_pearson_no_match_returns_none :
    neyman_pearson [0, 1] [0, 1/2] [2, 0] (95/100) true = none ∧
      neyman_pearson [0, 1/2] [0, 1] [2, 0] (1/4) false = none := by
  constructor
  · norm_num [neyman_pearson, List.range_succ]
  · norm_num [neyman_pearson, List.range_succ]

/-! ## AUCEngine: `partial_auc` and `metrics.auc` -/

/-- The exceptions `partial_auc` (and the `sklearn.metrics.auc` it calls) can
raise: the `op1 >= op2` `ValueError`, `check_consistent_length`, the
"at least 2 points" check, the non-monotone-`x` check, and `IndexError` from
the sensitivity-branch while loops. -/
inductive AucErr : Type
  | domain
  | lenMismatch
  | tooFew
  | notIncreasing
  | indexErr
deriving DecidableEq

/-- `np.diff`. -/
def diffs (x : List ℚ) : List ℚ := (x.zip x.tail).map (fun p => p.2 - p.1)

/-- `np.trapz(y, x)`: trapezoidal integration of `y` over `x`. -/
def trapz (y x : List ℚ) : ℚ :=
  (((x.zip x.tail).zip (y.zip y.tail)).map
    (fun p => (p.1.2 - p.1.1) * (p.2.1 + p.2.2) / 2)).sum

/-- Lexicographic order used by `np.lexsort((y, x))`: primary key `x`,
secondary key `y`. -/
def lexLe (a b : ℚ × ℚ) : Bool :=
  decide (a.1 < b.1) || (decide (a.1 = b.1) && decide (a.2 ≤ b.2))

def insertLe {α : Type} (le : α → α → Bool) (a : α) : List α → List α
  | [] => [a]
  | b :: l => if le a b then a :: b :: l else b :: insertLe le a l

/-- Stable insertion sort, modelling the reorder step of `metrics.auc`. -/
def sortLe {α : Type} (le : α → α → Bool) : List α → List α
  | [] => []
  | a :: l => insertLe le a (sortLe le l)

/-- `sklearn.metrics.auc(x, y, reorder)`: length checks, then either lexsort
(`reorder=True`) or a direction check on `np.diff(x)`, then `np.trapz`. -/
def metricsAuc (x y : List ℚ) (reorder : Bool) : Except AucErr ℚ :=
  if x.length ≠ y.length then .error .lenMismatch
  else if x.length < 2 then .error .tooFew
  else
    match reorder with
    | true =>
        .ok (trapz ((sortLe lexLe (x.zip y)).map Prod.snd)
              ((sortLe lexLe (x.zip y)).map Prod.fst))
    | false =>
        if (diffs x).any (fun d => decide (d < 0)) then
          if (diffs x).all (fun d => decide (d ≤ 0)) then .ok (-(trapz y x))
          else .error .notIncreasing
        else .ok (trapz y x)

/-- Full AUC as computed by the `op1=0, op2=1` branch of `partial_auc`
(`metrics.auc(fpr, tpr)`). -/
def full_auc (fpr tpr : List ℚ) : Except AucErr ℚ := metricsAuc fpr tpr false

/-- The `Sp=True` branch of `partial_auc`: mask the curve to
`1-op2 ≤ fpr ≤ 1-op1`, zero everything outside, `metrics.auc(..., reorder=True)`. -/
def pauc_spBranch (fpr tpr : List ℚ) (op1 op2 : ℚ) : Except AucErr ℚ :=
  metricsAuc
    ((fpr.zip (fpr.map (fun f => decide (1 - op2 ≤ f) && decide (f ≤ 1 - op1)))).map
      (fun p => if p.2 then p.1 else 0))
    ((tpr.zip (fpr.map (fun f => decide (1 - op2 ≤ f) && decide (f ≤ 1 - op1)))).map
      (fun p => if p.2 then p.1 else 0))
    true

/-- Shallow embedding of `partial_auc(fpr, tpr, op1, op2, Sp)`.  The single
possible recursive call (`partial_auc(fpr, tpr, Sp1, Sp2, Sp=True)` in the
sensitivity branch, which cannot recurse further) is inlined.  The two while
loops of the sensitivity branch are modelled by `find?` scans; running past
either end of the array (including Python's negative-index wrap-around on
the backward scan) is `IndexError`. -/
def partial_auc (fpr tpr : List ℚ) (op1 op2 : ℚ) (Sp : Bool) : Except AucErr ℚ :=
  if op2 ≤ op1 then .error .domain
  else if 0 < op1 ∨ op2 < 1 then
    match Sp with
    | true => pauc_spBranch fpr tpr op1 op2
    | false =>
      match (List.range tpr.length).find? (fun i => decide (op1 ≤ tpr.getD i 0)) with
      | none => .error .indexErr
      | some i =>
        match ((List.range tpr.length).reverse).find?
            (fun j => decide (tpr.getD j 0 ≤ op2)) with
        | none => .error .indexErr
        | some j =>
          match (if 1 - fpr.getD i 0 ≤ 1 - fpr.getD j 0 then Except.error AucErr.domain
                 else if 0 < 1 - fpr.getD j 0 ∨ 1 - fpr.getD i 0 < 1 then
                   pauc_spBranch fpr tpr (1 - fpr.getD j 0) (1 - fpr.getD i 0)
                 else metricsAuc fpr tpr false) with
          | .error e => .error e
          | .ok a => .ok (a + ((op2 - op1) * (1 - fpr.getD j 0)
              - ((1 - fpr.getD i 0) - (1 - fpr.getD j 0)) * op1))
  else metricsAuc fpr tpr false

theorem chain'_zip_le : ∀ {x : List ℚ}, List.Chain' (· ≤ ·) x →
    ∀ p ∈ x.zip x.tail, p.1 ≤ p.2
  | [], _ => by simp
  | [a], _ => by simp
  | a :: b :: l, h => by
      intro p hp
      rw [show (a :: b :: l).tail = b :: l from rfl, List.zip_cons_cons] at hp
      rcases List.mem_cons.mp hp with h1 | h1
      · subst h1; exact (List.chain'_cons.mp h).1
      · exact chain'_zip_le (List.chain'_cons.mp h).2 p h1

theorem any_eq_false_of_all_false {α : Type} {p : α → Bool} :
    ∀ {l : List α}, (∀ a ∈ l, p a = false) → l.any p = false
  | [], _ => rfl
  | a :: l, h => by
      rw [List.any_cons, h a (List.mem_cons_self a l), Bool.false_or]
      exact any_eq_false_of_all_false (fun b hb => h b (List.mem_cons_of_mem a hb))

/-- Monotone `x` passes the `metrics.auc` direction check with direction `+1`. -/
theorem metricsAuc_of_monotone {x y : List ℚ} (hlen : x.length = y.length)
    (h2 : 2 ≤ x.length) (hmono : List.Chain' (· ≤ ·) x) :
    metricsAuc x y false = .ok (trapz y x) := by
  unfold metricsAuc
  rw [if_neg (by omega), if_neg (by omega)]
  have hany : (diffs x).any (fun d => decide (d < 0)) = false := by
    refine any_eq_false_of_all_false (fun d hd => ?_)
    obtain ⟨p, hp, rfl⟩ := List.mem_map.mp hd
    have := chain'_zip_le hmono p hp
    simpa using by linarith
  simp [hany]

/-- C2: `partial_auc(fpr, tpr, 0, 1, Sp)` takes the full-AUC branch for both
settings of `Sp` and equals the trapezoidal area of the curve. -/
theorem partial_auc_full_range (fpr tpr : List ℚ) (Sp : Bool)
    (hlen : fpr.length = tpr.length) (h2 : 2 ≤ fpr.length)
    (hmono : List.Chain' (· ≤ ·) fpr) :
    partial_auc fpr tpr 0 1 Sp = full_auc fpr tpr ∧
      full_auc fpr tpr = .ok (trapz tpr fpr) := by
  constructor
  · unfold partial_auc
    rw [if_neg (by norm_num), if_neg (by norm_num)]
    rfl
  · exact metricsAuc_of_monotone hlen h2 hmono

theorem partial_auc_full_range_witness :
    partial_auc [0, 1] [0, 1] 0 1 true = full_auc [0, 1] [0, 1] ∧
      full_auc [0, 1] [0, 1] = .ok (trapz [0, 1] [0, 1]) :=
  partial_auc_full_range [0, 1] [0, 1] true rfl (by norm_num)
    (by norm_num [List.chain'_cons])

theorem metricsAuc_ne_error_domain (x y : List ℚ) (reorder : Bool) :
    metricsAuc x y reorder ≠ .error .domain := by
  unfold metricsAuc
  cases reorder <;> split_ifs <;> simp

/-- C7 (amended): `op1 ≥ op2` always raises the `DomainError`; with
`op1 < op2` the `Sp=True` path never raises it, but the `Sp=False`
(sensitivity) path can still raise it through its recursive specificity call
when the located bounds satisfy `Sp1 ≥ Sp2`. -/
theorem partial_auc_domain_amended (fpr tpr : List ℚ) (op1 op2 : ℚ) (Sp : Bool) :
    (op2 ≤ op1 → partial_auc fpr tpr op1 op2 Sp = .error .domain) ∧
    (op1 < op2 → Sp = true → partial_auc fpr tpr op1 op2 Sp ≠ .error .domain) := by
  constructor
  · intro h
    unfold partial_auc
    rw [if_pos h]
  · intro h hSp
    subst hSp
    unfold partial_auc
    rw [if_neg (not_le.mpr h)]
    by_cases hbr : 0 < op1 ∨ op2 < 1
    · rw [if_pos hbr]
      exact metricsAuc_ne_error_domain _ _ _
    · rw [if_neg hbr]
      exact metricsAuc_ne_error_domain _ _ _

theorem partial_auc_domain_amended_witness :
    partial_auc [0, 1] [0, 1] 1 0 false = .error .domain ∧
      partial_auc [0, 1] [0, 1] 0 (1/2) true ≠ .error .domain :=
  ⟨(partial_auc_domain_amended [0, 1] [0, 1] 1 0 false).1 (by norm_num),
   (partial_auc_domain_amended [0, 1] [0, 1] 0 (1/2) true).2 (by norm_num) rfl⟩

/-- C7 counterexample: `op1 = 0.3 < 0.7 = op2`, yet the sensitivity branch
locates `Sp1 = 1 ≥ 0 = Sp2` on the two-point diagonal curve and its
recursive specificity call raises the `op1 must be less than op2`
`ValueError` anyway — so "raises iff `op1 ≥ op2`" is false. -/
theorem partial_auc_se_domain_counterexample :
    partial_auc [0, 1] [0, 1] (3/10) (7/10) false = .error .domain := by
  norm_num [partial_auc, List.range_succ]

/-! ## OperatingPointSelector: `max_youden_J`

The Python code initialises `Jval = Jtpr = Jtnr = Jthresh = 0.0` — but *not*
`Jfpr`.  `Jfpr` is only assigned inside the update branch of the scan, so on
a curve where no point has `tpr + tnr - 1 > 0` the final
`return (Jval, Jfpr, Jtpr, Jthresh)` raises `NameError`/`UnboundLocalError`.
The state carries `Jfpr : Option ℚ`, `none` meaning "never assigned", and
the function returns `none` for the raising run. -/

structure JState where
  Jval : ℚ
  Jtpr : ℚ
  Jtnr : ℚ
  Jthresh : ℚ
  Jfpr : Option ℚ

/-- Youden's J at curve index `i`: `tpr[i] + tnr[i] - 1`. -/
def Jat (fpr tpr : List ℚ) (i : ℕ) : ℚ :=
  tpr.getD i 0 + (1 - fpr.getD i 0) - 1

/-- One iteration of the `max_youden_J` scan (the code stores
`Jval = Jtnr + Jtpr - 1`, the same rational as `Jat`). -/
def myjStep (fpr tpr thresh : List ℚ) (st : JState) (i : ℕ) : JState :=
  if st.Jval < tpr.getD i 0 + (1 - fpr.getD i 0) - 1 then
    { Jval := tpr.getD i 0 + (1 - fpr.getD i 0) - 1
      Jtpr := tpr.getD i 0
      Jtnr := 1 - fpr.getD i 0
      Jthresh := thresh.getD i 0
      Jfpr := some (fpr.getD i 0) }
  else st

def myjFold (fpr tpr thresh : List ℚ) (k : ℕ) : JState :=
  (List.range k).foldl (myjStep fpr tpr thresh) ⟨0, 0, 0, 0, none⟩

/-- Shallow embedding of `max_youden_J(fpr, tpr, thresh)`. -/
def max_youden_J (fpr tpr thresh : List ℚ) : Option (ℚ × ℚ × ℚ × ℚ) :=
  match myjFold fpr tpr thresh tpr.length with
  | ⟨_, _, _, _, none⟩ => none
  | ⟨v, t, _, th, some f⟩ => some (v, f, t, th)

/-- Scan invariant for `max_youden_J`: after `k` iterations either no index
so far had positive `J` and the state is untouched (`Jfpr` unassigned), or
the state records the *first* index attaining the running maximum. -/
theorem myjFold_inv (fpr tpr thresh : List ℚ) :
    ∀ k : ℕ,
      ((∀ i, i < k → Jat fpr tpr i ≤ 0) ∧
        myjFold fpr tpr thresh k = ⟨0, 0, 0, 0, none⟩) ∨
      (∃ m, m < k ∧ 0 < Jat fpr tpr m ∧
        myjFold fpr tpr thresh k =
          ⟨Jat fpr tpr m, tpr.getD m 0, 1 - fpr.getD m 0, thresh.getD m 0,
            some (fpr.getD m 0)⟩ ∧
        (∀ j, j < k → Jat fpr tpr j ≤ Jat fpr tpr m) ∧
        (∀ j, j < m → Jat fpr tpr j < Jat fpr tpr m))
  | 0 => Or.inl ⟨fun i hi => absurd hi (Nat.not_lt_zero i), rfl⟩
  | k + 1 => by
      have hstep : myjFold fpr tpr thresh (k + 1) =
          myjStep fpr tpr thresh (myjFold fpr tpr thresh k) k := by
        unfold myjFold
        rw [List.range_succ, List.foldl_append, List.foldl_cons, List.foldl_nil]
      rcases myjFold_inv fpr tpr thresh k with ⟨hall, hst⟩ | ⟨m, hm, hpos, hst, hmax, hfirst⟩
      · by_cases hk : 0 < Jat fpr tpr k
        · refine Or.inr ⟨k, Nat.lt_succ_self k, hk, ?_, ?_, ?_⟩
          · rw [hstep, hst]
            unfold myjStep
            rw [if_pos (by simpa [Jat] using hk)]
            rfl
          · intro j hj
            rcases Nat.lt_succ_iff_lt_or_eq.mp hj with hj | rfl
            · exact le_trans (hall j hj) hk.le
            · exact le_refl _
          · intro j hj
            exact lt_of_le_of_lt (hall j hj) hk
        · refine Or.inl ⟨?_, ?_⟩
          · intro i hi
            rcases Nat.lt_succ_iff_lt_or_eq.mp hi with hi | rfl
            · exact hall i hi
            · exact not_lt.mp hk
          · rw [hstep, hst]
            unfold myjStep
            rw [if_neg (by simpa [Jat] using hk)]
      · by_cases hk : Jat fpr tpr m < Jat fpr tpr k
        · refine Or.inr ⟨k, Nat.lt_succ_self k, lt_trans hpos hk, ?_, ?_, ?_⟩
          · rw [hstep, hst]
            unfold myjStep
            rw [if_pos (by simpa [Jat] using hk)]
            rfl
          · intro j hj
            rcases Nat.lt_succ_iff_lt_or_eq.mp hj with hj | rfl
            · exact le_trans (hmax j hj) hk.le
            · exact le_refl _
          · intro j hj
            exact lt_of_le_of_lt (hmax j hj) hk
        · refine Or.inr ⟨m, Nat.lt_succ_of_lt hm, hpos, ?_, ?_, hfirst⟩
          · rw [hstep, hst]
            unfold myjStep
            rw [if_neg (by simpa [Jat] using hk)]
          · intro j hj
            rcases Nat.lt_succ_iff_lt_or_eq.mp hj with hj | rfl
            · exact hmax j hj
            · exact not_lt.mp hk

/-- C5 (amended): *provided some curve point has strictly positive Youden J*,
`max_youden_J` returns `J = max_i (tpr[i] + (1-fpr[i]) - 1)` together with
the first point attaining that maximum (the strict `>` comparison keeps the
first).  The proviso is forced by the counterexample: on a curve with no
strictly positive `J` the function raises instead of returning. -/
theorem max_youden_J_amended (fpr tpr thresh : List ℚ)
    (hex : ∃ i, i < tpr.length ∧ 0 < Jat fpr tpr i) :
    ∃ m, m < tpr.length ∧
      max_youden_J fpr tpr thresh =
        some (Jat fpr tpr m, fpr.getD m 0, tpr.getD m 0, thresh.getD m 0) ∧
      (∀ j, j < tpr.length → Jat fpr tpr j ≤ Jat fpr tpr m) ∧
      (∀ j, j < m → Jat fpr tpr j < Jat fpr tpr m) := by
  rcases myjFold_inv fpr tpr thresh tpr.length with ⟨hall, _⟩ |
    ⟨m, hm, _, hst, hmax, hfirst⟩
  · obtain ⟨i, hi, hpos⟩ := hex
    exact absurd (hall i hi) (not_le.mpr hpos)
  · exact ⟨m, hm, by rw [max_youden_J, hst], hmax, hfirst⟩

theorem max_youden_J_amended_witness :
    ∃ m, m < 3 ∧
      max_youden_J [0, 0, 1] [0, 1, 1] [2, 1/2, 0] =
        some (Jat [0, 0, 1] [0, 1, 1] m, ([0, 0, 1] : List ℚ).getD m 0,
          ([0, 1, 1] : List ℚ).getD m 0, ([2, 1/2, 0] : List ℚ).getD m 0) ∧
      (∀ j, j < 3 → Jat [0, 0, 1] [0, 1, 1] j ≤ Jat [0, 0, 1] [0, 1, 1] m) ∧
      (∀ j, j < m → Jat [0, 0, 1] [0, 1, 1] j < Jat [0, 0, 1] [0, 1, 1] m) :=
  max_youden_J_amended [0, 0, 1] [0, 1, 1] [2, 1/2, 0]
    ⟨1, by norm_num, by norm_num [Jat]⟩

/-- C5 counterexample: on the two-point chance-diagonal curve every
`tpr[i] + (1-fpr[i]) - 1` equals `0`, the scan never assigns `Jfpr`, and
`max_youden_J` raises (`none`) instead of returning the maximum `J = 0` at
its first point as the claim asserts. -/
theorem max_youden_J_diagonal_counterexample :
    max_youden_J [0, 1] [0, 1] [2, 0] = none ∧
      ∀ i, i < 2 → Jat [0, 1] [0, 1] i = 0 := by
  constructor
  · norm_num [max_youden_J, myjFold, myjStep, List.range_succ]
  · intro i hi
    interval_cases i <;> norm_num [Jat]

/-- C9: `max_youden_J` is not total over valid ROC curves: on the chance
diagonal (a monotone curve from `(0,0)` to `(1,1)`) no point has
`tpr + tnr - 1 > 0`, the update branch never runs, `Jfpr` is never assigned,
and the final `return` raises — modelled by the `none` result. -/
theorem max_youden_J_unassigned_on_diagonal :
    max_youden_J [0, 1/2, 1] [0, 1/2, 1] [2, 1/2, 0] = none ∧
      List.Chain' (· ≤ ·) ([0, 1/2, 1] : List ℚ) ∧
      ([0, 1/2, 1] : List ℚ).getD 0 0 = 0 ∧
      ([0, 1/2, 1] : List ℚ).getD 2 0 = 1 := by
  refine ⟨?_, ?_, rfl, rfl⟩
  · norm_num [max_youden_J, myjFold, myjStep, List.range_succ]
  · norm_num [List.chain'_cons]

/-! ## OperatingPointSelector: `best_ppv` and `best_npv`

Both scans initialise the running distance to `1.0` and the running value to
`0.0`, but the recorded operating-point locals (`Bppv_tpr`, `Bppv_fpr`,
`Bppv_thresh`, resp. the `Bnpv_*` triple) are only assigned inside the update
branch; if no update ever fires the final `return` raises `NameError`,
modelled as `none`.  `best_ppv` updates on `diff <= ppv_diff` (non-strict,
keeps the last tie), `best_npv` on `diff < npv_diff` (strict, keeps the
first). -/

structure BPState where
  val : ℚ
  diff : ℚ
  pt : Option (ℚ × ℚ × ℚ)

/-- `ppv[i] = tpr[i]·Np / (tpr[i]·Np + fpr[i]·Nn)` (only evaluated when
`tpr[i] ≠ 0`). -/
def ppvAt (fpr tpr : List ℚ) (Nn Np : ℚ) (i : ℕ) : ℚ :=
  (tpr.getD i 0 * Np) / (tpr.getD i 0 * Np + fpr.getD i 0 * Nn)

/-- `npv[i] = tnr[i]·Nn / (tnr[i]·Nn + fnr[i]·Np)` with `tnr = 1-fpr`,
`fnr = 1-tpr` (only evaluated when `tnr[i] ≠ 0`). -/
def npvAt (fpr tpr : List ℚ) (Nn Np : ℚ) (i : ℕ) : ℚ :=
  ((1 - fpr.getD i 0) * Nn) /
    ((1 - fpr.getD i 0) * Nn + (1 - tpr.getD i 0) * Np)

def bppvStep (fpr tpr thresh : List ℚ) (Nn Np target : ℚ)
    (st : BPState) (i : ℕ) : BPState :=
  if tpr.getD i 0 = 0 then st
  else if |target - ppvAt fpr tpr Nn Np i| ≤ st.diff then
    ⟨ppvAt fpr tpr Nn Np i, |target - ppvAt fpr tpr Nn Np i|,
      some (fpr.getD i 0, tpr.getD i 0, thresh.getD i 0)⟩
  else st

def bnpvStep (fpr tpr thresh : List ℚ) (Nn Np target : ℚ)
    (st : BPState) (i : ℕ) : BPState :=
  if 1 - fpr.getD i 0 = 0 then st
  else if |target - npvAt fpr tpr Nn Np i| < st.diff then
    ⟨npvAt fpr tpr Nn Np i, |target - npvAt fpr tpr Nn Np i|,
      some (fpr.getD i 0, tpr.getD i 0, thresh.getD i 0)⟩
  else st

def bppvFold (fpr tpr thresh : List ℚ) (Nn Np target : ℚ) (k : ℕ) : BPState :=
  (List.range k).foldl (bppvStep fpr tpr thresh Nn Np target) ⟨0, 1, none⟩

def bnpvFold (fpr tpr thresh : List ℚ) (Nn Np target : ℚ) (k : ℕ) : BPState :=
  (List.range k).foldl (bnpvStep fpr tpr thresh Nn Np target) ⟨0, 1, none⟩

/-- Shallow embedding of `best_ppv` (scan over `enumerate(tpr)`). -/
def best_ppv (fpr tpr thresh : List ℚ) (Nn Np target : ℚ) :
    Option (ℚ × ℚ × ℚ × ℚ) :=
  match bppvFold fpr tpr thresh Nn Np target tpr.length with
  | ⟨_, _, none⟩ => none
  | ⟨b, _, some (f, t, th)⟩ => some (b, f, t, th)

/-- Shallow embedding of `best_npv` (scan over `enumerate(1-fpr)`). -/
def best_npv (fpr tpr thresh : List ℚ) (Nn Np target : ℚ) :
    Option (ℚ × ℚ × ℚ × ℚ) :=
  match bnpvFold fpr tpr thresh Nn Np target fpr.length with
  | ⟨_, _, none⟩ => none
  | ⟨b, _, some (f, t, th)⟩ => some (b, f, t, th)

/-- Scan invariant for `best_ppv`: with the non-strict `≤` update, after `k`
iterations the recorded point is the *last* index so far minimising
`|target - ppv|` among indices with `tpr ≠ 0` and distance `≤ 1`. -/
theorem bppvFold_inv (fpr tpr thresh : List ℚ) (Nn Np target : ℚ) :
    ∀ k : ℕ,
      ((∀ i, i < k → tpr.getD i 0 ≠ 0 →
          1 < |target - ppvAt fpr tpr Nn Np i|) ∧
        bppvFold fpr tpr thresh Nn Np target k = ⟨0, 1, none⟩) ∨
      (∃ m, m < k ∧ tpr.getD m 0 ≠ 0 ∧
        |target - ppvAt fpr tpr Nn Np m| ≤ 1 ∧
        bppvFold fpr tpr thresh Nn Np target k =
          ⟨ppvAt fpr tpr Nn Np m, |target - ppvAt fpr tpr Nn Np m|,
            some (fpr.getD m 0, tpr.getD m 0, thresh.getD m 0)⟩ ∧
        (∀ j, j < k → tpr.getD j 0 ≠ 0 →
          |target - ppvAt fpr tpr Nn Np m| ≤ |target - ppvAt fpr tpr Nn Np j|) ∧
        (∀ j, m < j → j < k → tpr.getD j 0 ≠ 0 →
          |target - ppvAt fpr tpr Nn Np m| < |target - ppvAt fpr tpr Nn Np j|))
  | 0 => Or.inl ⟨fun i hi => absurd hi (Nat.not_lt_zero i), rfl⟩
  | k + 1 => by
      have hstep : bppvFold fpr tpr thresh Nn Np target (k + 1) =
          bppvStep fpr tpr thresh Nn Np target
            (bppvFold fpr tpr thresh Nn Np target k) k := by
        unfold bppvFold
        rw [List.range_succ, List.foldl_append, List.foldl_cons, List.foldl_nil]
      by_cases hz : tpr.getD k 0 = 0
      · rcases bppvFold_inv fpr tpr thresh Nn Np target k with ⟨hall, hst⟩ |
          ⟨m, hm, hmne, hm1, hst, hmin, hlast⟩
        · refine Or.inl ⟨?_, ?_⟩
          · intro i hi hne
            rcases Nat.lt_succ_iff_lt_or_eq.mp hi with hi | rfl
            · exact hall i hi hne
            · exact absurd hz hne
          · rw [hstep, hst]
            unfold bppvStep
            rw [if_pos hz]
        · refine Or.inr ⟨m, Nat.lt_succ_of_lt hm, hmne, hm1, ?_, ?_, ?_⟩
          · rw [hstep, hst]
            unfold bppvStep
            rw [if_pos hz]
          · intro j hj hne
            rcases Nat.lt_succ_iff_lt_or_eq.mp hj with hj | rfl
            · exact hmin j hj hne
            · exact absurd hz hne
          · intro j hmj hj hne
            rcases Nat.lt_succ_iff_lt_or_eq.mp hj with hj | rfl
            · exact hlast j hmj hj hne
            · exact absurd hz hne
      · rcases bppvFold_inv fpr tpr thresh Nn Np target k with ⟨hall, hst⟩ |
          ⟨m, hm, hmne, hm1, hst, hmin, hlast⟩
        · by_cases hd : |target - ppvAt fpr tpr Nn Np k| ≤ 1
          · refine Or.inr ⟨k, Nat.lt_succ_self k, hz, hd, ?_, ?_, ?_⟩
            · rw [hstep, hst]
              unfold bppvStep
              rw [if_neg hz, if_pos (by exact hd)]
            · intro j hj hne
              rcases Nat.lt_succ_iff_lt_or_eq.mp hj with hj | rfl
              · exact le_trans hd (hall j hj hne).le
              · exact le_refl _
            · intro j hkj hj _
              omega
          · refine Or.inl ⟨?_, ?_⟩
            · intro i hi hne
              rcases Nat.lt_succ_iff_lt_or_eq.mp hi with hi | rfl
              · exact hall i hi hne
              · exact not_le.mp hd
            · rw [hstep, hst]
              unfold bppvStep
              rw [if_neg hz, if_neg hd]
        · by_cases hd : |target - ppvAt fpr tpr Nn Np k| ≤
              |target - ppvAt fpr tpr Nn Np m|
          · refine Or.inr ⟨k, Nat.lt_succ_self k, hz, le_trans hd hm1, ?_, ?_, ?_⟩
            · rw [hstep, hst]
              unfold bppvStep
              rw [if_neg hz, if_pos (by exact hd)]
            · intro j hj hne
              rcases Nat.lt_succ_iff_lt_or_eq.mp hj with hj | rfl
              · exact le_trans hd (hmin j hj hne)
              · exact le_refl _
            · intro j hkj hj _
              omega
          · refine Or.inr ⟨m, Nat.lt_succ_of_lt hm, hmne, hm1, ?_, ?_, ?_⟩
            · rw [hstep, hst]
              unfold bppvStep
              rw [if_neg hz, if_neg hd]
            · intro j hj hne
              rcases Nat.lt_succ_iff_lt_or_eq.mp hj with hj | rfl
              · exact hmin j hj hne
              · exact (not_le.mp hd).le
            · intro j hmj hj hne
              rcases Nat.lt_succ_iff_lt_or_eq.mp hj with hj | rfl
              · exact hlast j hmj hj hne
              · exact not_le.mp hd

/-- Scan invariant for `best_npv`: with the strict `<` update, after `k`
iterations the recorded point is the *first* index so far minimising
`|target - npv|` among indices with `tnr ≠ 0` and distance `< 1`. -/
theorem bnpvFold_inv (fpr tpr thresh : List ℚ) (Nn Np target : ℚ) :
    ∀ k : ℕ,
      ((∀ i, i < k → 1 - fpr.getD i 0 ≠ 0 →
          1 ≤ |target - npvAt fpr tpr Nn Np i|) ∧
        bnpvFold fpr tpr thresh Nn Np target k = ⟨0, 1, none⟩) ∨
      (∃ m, m < k ∧ 1 - fpr.getD m 0 ≠ 0 ∧
        |target - npvAt fpr tpr Nn Np m| < 1 ∧
        bnpvFold fpr tpr thresh Nn Np target k =
          ⟨npvAt fpr tpr Nn Np m, |target - npvAt fpr tpr Nn Np m|,
            some (fpr.getD m 0, tpr.getD m 0, thresh.getD m 0)⟩ ∧
        (∀ j, j < k → 1 - fpr.getD j 0 ≠ 0 →
          |target - npvAt fpr tpr Nn Np m| ≤ |target - npvAt fpr tpr Nn Np j|) ∧
        (∀ j, j < m → 1 - fpr.getD j 0 ≠ 0 →
          |target - npvAt fpr tpr Nn Np m| < |target - npvAt fpr tpr Nn Np j|))
  | 0 => Or.inl ⟨fun i hi => absurd hi (Nat.not_lt_zero i), rfl⟩
  | k + 1 => by
      have hstep : bnpvFold fpr tpr thresh Nn Np target (k + 1) =
          bnpvStep fpr tpr thresh Nn Np target
            (bnpvFold fpr tpr thresh Nn Np target k) k := by
        unfold bnpvFold
        rw [List.range_succ, List.foldl_append, List.foldl_cons, List.foldl_nil]
      by_cases hz : 1 - fpr.getD k 0 = 0
      · rcases bnpvFold_inv fpr tpr thresh Nn Np target k with ⟨hall, hst⟩ |
          ⟨m, hm, hmne, hm1, hst, hmin, hfirst⟩
        · refine Or.inl ⟨?_, ?_⟩
          · intro i hi hne
            rcases Nat.lt_succ_iff_lt_or_eq.mp hi with hi | rfl
            · exact hall i hi hne
            · exact absurd hz hne
          · rw [hstep, hst]
            unfold bnpvStep
            rw [if_pos hz]
        · refine Or.inr ⟨m, Nat.lt_succ_of_lt hm, hmne, hm1, ?_, ?_, hfirst⟩
          · rw [hstep, hst]
            unfold bnpvStep
            rw [if_pos hz]
          · intro j hj hne
            rcases Nat.lt_succ_iff_lt_or_eq.mp hj with hj | rfl
            · exact hmin j hj hne
            · exact absurd hz hne
      · rcases bnpvFold_inv fpr tpr thresh Nn Np target k with ⟨hall, hst⟩ |
          ⟨m, hm, hmne, hm1, hst, hmin, hfirst⟩
        · by_cases hd : |target - npvAt fpr tpr Nn Np k| < 1
          · refine Or.inr ⟨k, Nat.lt_succ_self k, hz, hd, ?_, ?_, ?_⟩
            · rw [hstep, hst]
              unfold bnpvStep
              rw [if_neg hz, if_pos (by exact hd)]
            · intro j hj hne
              rcases Nat.lt_succ_iff_lt_or_eq.mp hj with hj | rfl
              · exact le_trans hd.le (hall j hj hne)
              · exact le_refl _
            · intro j hj hne
              exact lt_of_lt_of_le hd (hall j hj hne)
          · refine Or.inl ⟨?_, ?_⟩
            · intro i hi hne
              rcases Nat.lt_succ_iff_lt_or_eq.mp hi with hi | rfl
              · exact hall i hi hne
              · exact not_lt.mp hd
            · rw [hstep, hst]
              unfold bnpvStep
              rw [if_neg hz, if_neg hd]
        · by_cases hd : |target - npvAt fpr tpr Nn Np k| <
              |target - npvAt fpr tpr Nn Np m|
          · refine Or.inr ⟨k, Nat.lt_succ_self k, hz, lt_trans hd hm1, ?_, ?_, ?_⟩
            · rw [hstep, hst]
              unfold bnpvStep
              rw [if_neg hz, if_pos (by exact hd)]
            · intro j hj hne
              rcases Nat.lt_succ_iff_lt_or_eq.mp hj with hj | rfl
              · exact le_trans hd.le (hmin j hj hne)
              · exact le_refl _
            · intro j hj hne
              exact lt_of_lt_of_le hd (hmin j hj hne)
          · refine Or.inr ⟨m, Nat.lt_succ_of_lt hm, hmne, hm1, ?_, ?_, hfirst⟩
            · rw [hstep, hst]
              unfold bnpvStep
              rw [if_neg hz, if_neg hd]
            · intro j hj hne
              rcases Nat.lt_succ_iff_lt_or_eq.mp hj with hj | rfl
              · exact hmin j hj hne
              · exact not_lt.mp hd

theorem ppvAt_bounds (fpr tpr : List ℚ) {Nn Np : ℚ} (hNn : 0 ≤ Nn) (hNp : 0 < Np)
    {i : ℕ} (ht0 : 0 ≤ tpr.getD i 0) (hf0 : 0 ≤ fpr.getD i 0)
    (hne : tpr.getD i 0 ≠ 0) :
    0 < ppvAt fpr tpr Nn Np i ∧ ppvAt fpr tpr Nn Np i ≤ 1 := by
  have ht : 0 < tpr.getD i 0 := lt_of_le_of_ne ht0 (Ne.symm hne)
  have ha : 0 < tpr.getD i 0 * Np := mul_pos ht hNp
  have hb : 0 ≤ fpr.getD i 0 * Nn := mul_nonneg hf0 hNn
  unfold ppvAt
  constructor
  · exact div_pos ha (by linarith)
  · rw [div_le_one (by linarith)]
    linarith

theorem abs_dist_le_one {t q : ℚ} (ht0 : 0 ≤ t) (ht1 : t ≤ 1) (hq0 : 0 < q)
    (hq1 : q ≤ 1) : |t - q| ≤ 1 :=
  abs_le.mpr ⟨by linarith, by linarith⟩

theorem abs_dist_lt_one {t q : ℚ} (ht0 : 0 ≤ t) (ht1 : t ≤ 1) (hq0 : 0 < q)
    (hq1 : q < 1) : |t - q| < 1 :=
  abs_lt.mpr ⟨by linarith, by linarith⟩

/-- C6: for a ROC curve (starting at `(0,0)`, rates in `[0,1]`) with positive
class counts and a target value in `[0,1]`: among the points with `tpr ≠ 0`,
`best_ppv` returns the LAST point minimising `|target - PPV|` (its
tie-breaking comparison `diff <= ppv_diff` is non-strict, so every strictly
later participant is strictly worse), while among the points with
`tnr = 1 - fpr ≠ 0`, `best_npv` returns the FIRST point minimising
`|target - NPV|` (its comparison `diff < npv_diff` is strict, so every
strictly earlier participant is strictly worse). -/
theorem best_ppv_npv_tie_break
    (fpr tpr thresh : List ℚ) (Nn Np target : ℚ)
    (hlen : fpr.length = tpr.length) (hn : 0 < tpr.length)
    (hf0 : fpr.getD 0 0 = 0) (ht0 : tpr.getD 0 0 = 0)
    (hNn : 0 < Nn) (hNp : 0 < Np)
    (htgt0 : 0 ≤ target) (htgt1 : target ≤ 1)
    (hfb : ∀ i, i < fpr.length → 0 ≤ fpr.getD i 0 ∧ fpr.getD i 0 ≤ 1)
    (htb : ∀ i, i < tpr.length → 0 ≤ tpr.getD i 0 ∧ tpr.getD i 0 ≤ 1)
    (hex : ∃ i, i < tpr.length ∧ tpr.getD i 0 ≠ 0) :
    (∃ m, m < tpr.length ∧ tpr.getD m 0 ≠ 0 ∧
      best_ppv fpr tpr thresh Nn Np target =
        some (ppvAt fpr tpr Nn Np m, fpr.getD m 0, tpr.getD m 0,
          thresh.getD m 0) ∧
      (∀ j, j < tpr.length → tpr.getD j 0 ≠ 0 →
        |target - ppvAt fpr tpr Nn Np m| ≤ |target - ppvAt fpr tpr Nn Np j|) ∧
      (∀ j, m < j → j < tpr.length → tpr.getD j 0 ≠ 0 →
        |target - ppvAt fpr tpr Nn Np m| < |target - ppvAt fpr tpr Nn Np j|)) ∧
    (∃ m, m < fpr.length ∧ 1 - fpr.getD m 0 ≠ 0 ∧
      best_npv fpr tpr thresh Nn Np target =
        some (npvAt fpr tpr Nn Np m, fpr.getD m 0, tpr.getD m 0,
          thresh.getD m 0) ∧
      (∀ j, j < fpr.length → 1 - fpr.getD j 0 ≠ 0 →
        |target - npvAt fpr tpr Nn Np m| ≤ |target - npvAt fpr tpr Nn Np j|) ∧
      (∀ j, j < m → 1 - fpr.getD j 0 ≠ 0 →
        |target - npvAt fpr tpr Nn Np m| < |target - npvAt fpr tpr Nn Np j|)) := by
  constructor
  · rcases bppvFold_inv fpr tpr thresh Nn Np target tpr.length with ⟨hall, _⟩ |
      ⟨m, hm, hmne, _, hst, hmin, hlast⟩
    · obtain ⟨i, hi, hne⟩ := hex
      have hif : i < fpr.length := by omega
      obtain ⟨hp0, hp1⟩ := ppvAt_bounds fpr tpr hNn.le hNp (htb i hi).1 (hfb i hif).1 hne
      exact absurd (abs_dist_le_one htgt0 htgt1 hp0 hp1)
        (not_le.mpr (hall i hi hne))
    · refine ⟨m, hm, hmne, ?_, hmin, hlast⟩
      simp only [best_ppv, hst]
  · rcases bnpvFold_inv fpr tpr thresh Nn Np target fpr.length with ⟨hall, _⟩ |
      ⟨m, hm, hmne, _, hst, hmin, hfirst⟩
    · have h0f : 0 < fpr.length := by omega
      have htnr : 1 - fpr.getD 0 0 ≠ 0 := by rw [hf0]; norm_num
      have hq : npvAt fpr tpr Nn Np 0 = Nn / (Nn + Np) := by
        unfold npvAt
        rw [hf0, ht0]
        norm_num
      have hq0 : 0 < npvAt fpr tpr Nn Np 0 := by
        rw [hq]
        exact div_pos hNn (by linarith)
      have hq1 : npvAt fpr tpr Nn Np 0 < 1 := by
        rw [hq, div_lt_one (by linarith)]
        linarith
      exact absurd (abs_dist_lt_one htgt0 htgt1 hq0 hq1)
        (not_lt.mpr (hall 0 h0f htnr))
    · refine ⟨m, hm, hmne, ?_, hmin, hfirst⟩
      simp only [best_npv, hst]

theorem best_ppv_npv_tie_break_witness :
    (∃ m, m < 3 ∧ ([0, 1/2, 1] : List ℚ).getD m 0 ≠ 0 ∧
      best_ppv [0, 1/2, 1] [0, 1/2, 1] [2, 1/2, 0] 1 1 1 =
        some (ppvAt [0, 1/2, 1] [0, 1/2, 1] 1 1 m,
          ([0, 1/2, 1] : List ℚ).getD m 0, ([0, 1/2, 1] : List ℚ).getD m 0,
          ([2, 1/2, 0] : List ℚ).getD m 0) ∧
      (∀ j, j < 3 → ([0, 1/2, 1] : List ℚ).getD j 0 ≠ 0 →
        |1 - ppvAt [0, 1/2, 1] [0, 1/2, 1] 1 1 m| ≤
          |1 - ppvAt [0, 1/2, 1] [0, 1/2, 1] 1 1 j|) ∧
      (∀ j, m < j → j < 3 → ([0, 1/2, 1] : List ℚ).getD j 0 ≠ 0 →
        |1 - ppvAt [0, 1/2, 1] [0, 1/2, 1] 1 1 m| <
          |1 - ppvAt [0, 1/2, 1] [0, 1/2, 1] 1 1 j|)) ∧
    (∃ m, m < 3 ∧ 1 - ([0, 1/2, 1] : List ℚ).getD m 0 ≠ 0 ∧
      best_npv [0, 1/2, 1] [0, 1/2, 1] [2, 1/2, 0] 1 1 1 =
        some (npvAt [0, 1/2, 1] [0, 1/2, 1] 1 1 m,
          ([0, 1/2, 1] : List ℚ).getD m 0, ([0, 1/2, 1] : List ℚ).getD m 0,
          ([2, 1/2, 0] : List ℚ).getD m 0) ∧
      (∀ j, j < 3 → 1 - ([0, 1/2, 1] : List ℚ).getD j 0 ≠ 0 →
        |1 - npvAt [0, 1/2, 1] [0, 1/2, 1] 1 1 m| ≤
          |1 - npvAt [0, 1/2, 1] [0, 1/2, 1] 1 1 j|) ∧
      (∀ j, j < m → 1 - ([0, 1/2, 1] : List ℚ).getD j 0 ≠ 0 →
        |1 - npvAt [0, 1/2, 1] [0, 1/2, 1] 1 1 m| <
          |1 - npvAt [0, 1/2, 1] [0, 1/2, 1] 1 1 j|)) :=
  best_ppv_npv_tie_break [0, 1/2, 1] [0, 1/2, 1] [2, 1/2, 0] 1 1 1
    rfl (by norm_num) rfl rfl (by norm_num) (by norm_num) (by norm_num) (by norm_num)
    (fun i hi => by
      have h3 : i < 3 := by simpa using hi
      interval_cases i <;> norm_num)
    (fun i hi => by
      have h3 : i < 3 := by simpa using hi
      interval_cases i <;> norm_num)
    ⟨1, by norm_num, by norm_num⟩

/-! ## IsotonicCalibrator: `pav_rocch`

The while loop of `pav_rocch` repeatedly finds the first adjacent violation
`v[i+1] < v[i]` (`np.where(np.diff(v) < 0)[0][0]`), merges the two level
sets around it (`start = lvlsets[viol,0]`, `last = lvlsets[viol+1,1]`),
replaces `v[start..last]` by the mean of the current values in that range
and the level-set rows by `(start, last)`.  The loop is modelled with
explicit fuel; the termination theorem shows `n-1` iterations always reach
the all-differences-nonnegative exit. -/

/-- First index `i` (counting from the offset) with `v[i+1] < v[i]`, i.e.
`np.where(np.diff(v) < 0)[0][0]`; `none` iff `np.all(np.diff(v) >= 0)`. -/
def firstViol : ℕ → List ℚ → Option ℕ
  | _, [] => none
  | _, [_] => none
  | i, x :: y :: xs => if y < x then some i else firstViol (i + 1) (y :: xs)

def findViol (v : List ℚ) : Option ℕ := firstViol 0 v

/-- `sum(v[a:b])` (half-open index range). -/
def rsum (y : List ℚ) (a b : ℕ) : ℚ := ∑ i in Finset.Ico a b, y.getD i 0

/-- The in-place loop `for i in range(start, last+1): l[i] = val`, rendered
functionally with a running offset. -/
def updRange {α : Type} (start last : ℕ) (val : α) : ℕ → List α → List α
  | _, [] => []
  | i, x :: xs =>
      (if start ≤ i ∧ i ≤ last then val else x) :: updRange start last val (i + 1) xs

/-- One iteration of the PAV while loop at violation index `viol`. -/
def pavUpdate (v : List ℚ) (L : List (ℕ × ℕ)) (viol : ℕ) :
    List ℚ × List (ℕ × ℕ) :=
  (updRange (L.getD viol (0, 0)).1 (L.getD (viol + 1) (0, 0)).2
    (rsum v (L.getD viol (0, 0)).1 ((L.getD (viol + 1) (0, 0)).2 + 1) /
      (((L.getD (viol + 1) (0, 0)).2 + 1 - (L.getD viol (0, 0)).1 : ℕ) : ℚ))
    0 v,
   updRange (L.getD viol (0, 0)).1 (L.getD (viol + 1) (0, 0)).2
    ((L.getD viol (0, 0)).1, (L.getD (viol + 1) (0, 0)).2) 0 L)

/-- The PAV while loop, with fuel. -/
def pavLoop : ℕ → List ℚ × List (ℕ × ℕ) → List ℚ × List (ℕ × ℕ)
  | 0, st => st
  | fuel + 1, (v, L) =>
      match findViol v with
      | none => (v, L)
      | some k => pavLoop fuel (pavUpdate v L k)

/-- `lvlsets = np.c_[np.arange(n), np.arange(n)]` (rows `(s+j, s+j)`). -/
def singletons : ℕ → ℕ → List (ℕ × ℕ)
  | _, 0 => []
  | s, k + 1 => (s, s) :: singletons (s + 1) k

/-- `t = target[np.argsort(score)]`: targets sorted by score ascending. -/
def pavSorted (target score : List ℚ) : List ℚ :=
  (sortLe (fun a b : ℚ × ℚ => decide (a.1 ≤ b.1)) (score.zip target)).map Prod.snd

/-- Shallow embedding of `pav_rocch(target, score)`: returns `(t, v)`.  The
while loop runs at most `n-1` times (see the termination theorem), so fuel
`n` is enough to reproduce the unbounded Python loop. -/
def pav_rocch (target score : List ℚ) : List ℚ × List ℚ :=
  (pavSorted target score,
   (pavLoop (pavSorted target score).length
     (pavSorted target score,
      singletons 0 (pavSorted target score).length)).1)

/-- Mean of `y` over the inclusive index block `[a, b]`. -/
def mu (y : List ℚ) (a b : ℕ) : ℚ :=
  rsum y a (b + 1) / ((b + 1 - a : ℕ) : ℚ)

/-- `P` tiles the index interval `[s, e)` with consecutive nonempty
inclusive blocks. -/
def covers : ℕ → ℕ → List (ℕ × ℕ) → Prop
  | s, e, [] => s = e
  | s, e, (a, b) :: rest => a = s ∧ s ≤ b ∧ covers (b + 1) e rest

/-- Every row of the level-set array inside block `p` equals `p`. -/
def blockL (L : List (ℕ × ℕ)) (p : ℕ × ℕ) : Prop :=
  ∀ i, p.1 ≤ i → i ≤ p.2 → L.getD i (0, 0) = p

/-- `v` is constant on block `p`, equal to the mean of `y` over `p`. -/
def blockV (y v : List ℚ) (p : ℕ × ℕ) : Prop :=
  ∀ i, p.1 ≤ i → i ≤ p.2 → v.getD i 0 = mu y p.1 p.2

/-- Prefix-sum property of a PAV block: every prefix of the block has mean at
least the block mean. -/
def blockPS (y : List ℚ) (p : ℕ × ℕ) : Prop :=
  ∀ t, p.1 ≤ t → t ≤ p.2 →
    ((t + 1 - p.1 : ℕ) : ℚ) * mu y p.1 p.2 ≤ rsum y p.1 (t + 1)

/-- Loop invariant of the PAV solver. -/
def PavInv (y v : List ℚ) (L P : List (ℕ × ℕ)) : Prop :=
  v.length = y.length ∧ L.length = y.length ∧ covers 0 y.length P ∧
    ∀ p ∈ P, blockL L p ∧ blockV y v p ∧ blockPS y p

/-- Sum of squared errors between `v` and `y` (over `y`'s index range). -/
def sse (y v : List ℚ) : ℚ :=
  ∑ i in Finset.range y.length, (v.getD i 0 - y.getD i 0) ^ 2

theorem firstViol_some :
    ∀ {l : List ℚ} {i k : ℕ}, firstViol i l = some k →
      i ≤ k ∧ k - i + 1 < l.length ∧ l.getD (k - i + 1) 0 < l.getD (k - i) 0
  | [], i, k, h => by simp [firstViol] at h
  | [x], i, k, h => by simp [firstViol] at h
  | x :: y :: xs, i, k, h => by
      rw [firstViol] at h
      by_cases hv : y < x
      · rw [if_pos hv] at h
        obtain rfl : i = k := Option.some.injEq _ _ ▸ h
        refine ⟨le_refl i, ?_, ?_⟩
        · simp
        · simpa [Nat.sub_self] using hv
      · rw [if_neg hv] at h
        obtain ⟨hik, hlt, hval⟩ := firstViol_some h
        have hki : i < k := hik
        have he1 : k - i + 1 = (k - (i + 1) + 1) + 1 := by omega
        have he2 : k - i = (k - (i + 1)) + 1 := by omega
        refine ⟨hki.le, ?_, ?_⟩
        · rw [List.length_cons]
          omega
        · rw [he1, he2, List.getD_cons_succ, List.getD_cons_succ]
          exact hval

theorem findViol_some {v : List ℚ} {k : ℕ} (h : findViol v = some k) :
    k + 1 < v.length ∧ v.getD (k + 1) 0 < v.getD k 0 := by
  obtain ⟨_, hlt, hval⟩ := firstViol_some h
  rw [Nat.sub_zero] at hlt hval
  exact ⟨hlt, hval⟩

theorem firstViol_none :
    ∀ {l : List ℚ} {i : ℕ}, firstViol i l = none → List.Chain' (· ≤ ·) l
  | [], _, _ => List.chain'_nil
  | [x], _, _ => List.chain'_singleton x
  | x :: y :: xs, i, h => by
      rw [firstViol] at h
      by_cases hv : y < x
      · rw [if_pos hv] at h
        cases h
      · rw [if_neg hv] at h
        exact List.chain'_cons.mpr ⟨not_lt.mp hv, firstViol_none h⟩

theorem findViol_none {v : List ℚ} (h : findViol v = none) :
    List.Chain' (· ≤ ·) v := firstViol_none h

theorem length_updRange {α : Type} (start last : ℕ) (val : α) :
    ∀ (l : List α) (off : ℕ), (updRange start last val off l).length = l.length
  | [], _ => rfl
  | x :: xs, off => by
      rw [updRange, List.length_cons, List.length_cons,
        length_updRange start last val xs (off + 1)]

theorem getD_updRange {α : Type} (start last : ℕ) (val : α) :
    ∀ (l : List α) (off j : ℕ) (d : α),
      (updRange start last val off l).getD j d =
        if j < l.length ∧ start ≤ off + j ∧ off + j ≤ last then val
        else l.getD j d
  | [], off, j, d => by simp [updRange]
  | x :: xs, off, 0, d => by
      rw [updRange, List.getD_cons_zero, List.getD_cons_zero]
      simp only [List.length_cons]
      split_ifs <;> first | rfl | omega
  | x :: xs, off, j + 1, d => by
      rw [updRange, List.getD_cons_succ, List.getD_cons_succ,
        getD_updRange start last val xs (off + 1) j d]
      simp only [List.length_cons]
      split_ifs <;> first | rfl | omega

theorem covers_le : ∀ {P : List (ℕ × ℕ)} {s e : ℕ}, covers s e P → s ≤ e
  | [], s, e, h => le_of_eq h
  | (a, b) :: rest, s, e, h => by
      obtain ⟨rfl, hb, hrest⟩ := h
      exact le_trans (le_trans hb (Nat.le_succ b)) (covers_le hrest)

theorem covers_append : ∀ {P₁ : List (ℕ × ℕ)} {s m : ℕ} {P₂ : List (ℕ × ℕ)} {e : ℕ},
    covers s m P₁ → covers m e P₂ → covers s e (P₁ ++ P₂)
  | [], s, m, P₂, e, h₁, h₂ => by
      obtain rfl : s = m := h₁
      exact h₂
  | (a, b) :: rest, s, m, P₂, e, h₁, h₂ => by
      obtain ⟨rfl, hb, hrest⟩ := h₁
      exact ⟨rfl, hb, covers_append hrest h₂⟩

theorem covers_bounds : ∀ {P : List (ℕ × ℕ)} {s e : ℕ}, covers s e P →
    ∀ p ∈ P, s ≤ p.1 ∧ p.1 ≤ p.2 ∧ p.2 < e
  | [], _, _, _, p, hp => by simp at hp
  | (a, b) :: rest, s, e, h, p, hp => by
      obtain ⟨rfl, hb, hrest⟩ := h
      rcases List.mem_cons.mp hp with rfl | hp
      · exact ⟨le_refl _, hb, lt_of_lt_of_le (Nat.lt_succ_self b) (covers_le hrest)⟩
      · obtain ⟨h1, h2, h3⟩ := covers_bounds hrest p hp
        exact ⟨by omega, h2, h3⟩

theorem covers_find : ∀ {P : List (ℕ × ℕ)} {s e i : ℕ}, covers s e P →
    s ≤ i → i < e →
    ∃ pre a b post, P = pre ++ (a, b) :: post ∧ a ≤ i ∧ i ≤ b ∧
      covers s a pre ∧ covers (b + 1) e post
  | [], s, e, i, h, hsi, hie => by
      obtain rfl : s = e := h
      omega
  | (a, b) :: rest, s, e, i, h, hsi, hie => by
      obtain ⟨rfl, hb, hrest⟩ := h
      by_cases hib : i ≤ b
      · exact ⟨[], a, b, rest, rfl, hsi, hib, rfl, hrest⟩
      · obtain ⟨pre', a', b', post', heq, h1, h2, hcov1, hcov2⟩ :=
          covers_find hrest (by omega) hie
        exact ⟨(a, b) :: pre', a', b', post', by rw [heq]; rfl, h1, h2,
          ⟨rfl, hb, hcov1⟩, hcov2⟩

theorem rsum_split (y : List ℚ) {a b c : ℕ} (hab : a ≤ b) (hbc : b ≤ c) :
    rsum y a c = rsum y a b + rsum y b c :=
  (Finset.sum_Ico_consecutive _ hab hbc).symm

theorem rsum_single (y : List ℚ) (a : ℕ) : rsum y a (a + 1) = y.getD a 0 := by
  unfold rsum
  rw [Finset.sum_Ico_succ_top (le_refl a), Finset.Ico_self, Finset.sum_empty,
    zero_add]

theorem rsum_const {y : List ℚ} {c : ℚ} {a b : ℕ}
    (h : ∀ i, a ≤ i → i < b → y.getD i 0 = c) :
    rsum y a b = ((b - a : ℕ) : ℚ) * c := by
  unfold rsum
  rw [Finset.sum_congr rfl (fun i hi => h i (Finset.mem_Ico.mp hi).1
    (Finset.mem_Ico.mp hi).2), Finset.sum_const, Nat.card_Ico, nsmul_eq_mul]

theorem count_cast_pos {a b : ℕ} (hab : a ≤ b) :
    (0 : ℚ) < ((b + 1 - a : ℕ) : ℚ) := by
  have : 0 < b + 1 - a := by omega
  exact_mod_cast this

theorem mu_mul (y : List ℚ) {a b : ℕ} (hab : a ≤ b) :
    ((b + 1 - a : ℕ) : ℚ) * mu y a b = rsum y a (b + 1) := by
  unfold mu
  rw [mul_div_cancel₀ _ (count_cast_pos hab).ne']

theorem singletons_length : ∀ (k s : ℕ), (singletons s k).length = k
  | 0, _ => rfl
  | k + 1, s => by rw [singletons, List.length_cons, singletons_length k (s + 1)]

theorem singletons_getD : ∀ (k s j : ℕ), j < k →
    (singletons s k).getD j (0, 0) = (s + j, s + j)
  | 0, _, j, h => absurd h (Nat.not_lt_zero j)
  | k + 1, s, 0, _ => by
      rw [singletons, List.getD_cons_zero, Prod.mk.injEq]
      omega
  | k + 1, s, j + 1, h => by
      rw [singletons, List.getD_cons_succ,
        singletons_getD k (s + 1) j (by omega), Prod.mk.injEq]
      omega

theorem singletons_covers : ∀ (k s : ℕ), covers s (s + k) (singletons s k)
  | 0, s => rfl
  | k + 1, s => by
      rw [singletons]
      refine ⟨rfl, le_refl s, ?_⟩
      have := singletons_covers k (s + 1)
      have he : s + 1 + k = s + (k + 1) := by omega
      rwa [he] at this

theorem singletons_mem : ∀ {k s : ℕ} {p : ℕ × ℕ}, p ∈ singletons s k →
    ∃ j, j < k ∧ p = (s + j, s + j)
  | 0, _, p, hp => by simp [singletons] at hp
  | k + 1, s, p, hp => by
      rw [singletons] at hp
      rcases List.mem_cons.mp hp with rfl | hp
      · exact ⟨0, Nat.succ_pos k, by rw [Prod.mk.injEq]; omega⟩
      · obtain ⟨j, hj, rfl⟩ := singletons_mem hp
        exact ⟨j + 1, by omega, by rw [Prod.mk.injEq]; omega⟩

/-- The initial PAV state (`v = y`, singleton level sets) satisfies the
invariant. -/
theorem pav_init_inv (y : List ℚ) :
    PavInv y y (singletons 0 y.length) (singletons 0 y.length) := by
  refine ⟨rfl, singletons_length _ 0, ?_, ?_⟩
  · have h := singletons_covers y.length 0
    rwa [Nat.zero_add] at h
  · intro p hp
    obtain ⟨j, hj, rfl⟩ := singletons_mem hp
    simp only [Nat.zero_add]
    have hone : (j + 1 - j : ℕ) = 1 := by omega
    have hmu : mu y j j = y.getD j 0 := by
      unfold mu
      rw [hone, Nat.cast_one, div_one, rsum_single]
    refine ⟨?_, ?_, ?_⟩
    · intro i hi1 hi2
      obtain rfl : i = j := le_antisymm hi2 hi1
      have h := singletons_getD y.length 0 i hj
      rwa [Nat.zero_add] at h
    · intro i hi1 hi2
      obtain rfl : i = j := le_antisymm hi2 hi1
      rw [hmu]
    · intro t ht1 ht2
      obtain rfl : t = j := le_antisymm ht2 ht1
      rw [hmu, hone, Nat.cast_one, one_mul, rsum_single]

/-- Merging two adjacent PAV blocks `[a₁, k]` (mean `μ₁`) and `[k+1, b₂]`
(mean `μ₂ < μ₁`) preserves the prefix-sum property, and the merged mean lies
between the two block means. -/
theorem blockPS_merge {y : List ℚ} {a₁ k b₂ : ℕ}
    (ha₁k : a₁ ≤ k) (hk1b₂ : k + 1 ≤ b₂)
    (hPS1 : blockPS y (a₁, k)) (hPS2 : blockPS y (k + 1, b₂))
    (hμlt : mu y (k + 1) b₂ < mu y a₁ k) :
    blockPS y (a₁, b₂) ∧ mu y (k + 1) b₂ ≤ mu y a₁ b₂ ∧
      mu y a₁ b₂ ≤ mu y a₁ k := by
  have hA : (0 : ℚ) < ((k + 1 - a₁ : ℕ) : ℚ) := count_cast_pos ha₁k
  have hB : (0 : ℚ) < ((b₂ + 1 - (k + 1) : ℕ) : ℚ) := count_cast_pos hk1b₂
  have hC : ((b₂ + 1 - a₁ : ℕ) : ℚ) =
      ((k + 1 - a₁ : ℕ) : ℚ) + ((b₂ + 1 - (k + 1) : ℕ) : ℚ) := by
    have h : (b₂ + 1 - a₁ : ℕ) = (k + 1 - a₁) + (b₂ + 1 - (k + 1)) := by omega
    rw [h]
    push_cast
    ring
  have hmean : (((k + 1 - a₁ : ℕ) : ℚ) + ((b₂ + 1 - (k + 1) : ℕ) : ℚ)) *
        mu y a₁ b₂ =
      ((k + 1 - a₁ : ℕ) : ℚ) * mu y a₁ k +
        ((b₂ + 1 - (k + 1) : ℕ) : ℚ) * mu y (k + 1) b₂ := by
    rw [← hC, mu_mul y (by omega : a₁ ≤ b₂),
      rsum_split y (by omega : a₁ ≤ k + 1) (by omega : k + 1 ≤ b₂ + 1),
      mu_mul y ha₁k, mu_mul y hk1b₂]
  have hgap1 : (0 : ℚ) < ((k + 1 - a₁ : ℕ) : ℚ) * (mu y a₁ k - mu y (k + 1) b₂) :=
    mul_pos hA (sub_pos.mpr hμlt)
  have hgap2 : (0 : ℚ) <
      ((b₂ + 1 - (k + 1) : ℕ) : ℚ) * (mu y a₁ k - mu y (k + 1) b₂) :=
    mul_pos hB (sub_pos.mpr hμlt)
  have hμ₂le : mu y (k + 1) b₂ ≤ mu y a₁ b₂ := by
    nlinarith [hmean, hgap1, hA, hB]
  have hμ₁ge : mu y a₁ b₂ ≤ mu y a₁ k := by
    nlinarith [hmean, hgap2, hA, hB]
  refine ⟨?_, hμ₂le, hμ₁ge⟩
  intro t ht1 ht2
  dsimp only at ht1 ht2 ⊢
  by_cases htk : t ≤ k
  · have h1 := hPS1 t ht1 htk
    have h2 : ((t + 1 - a₁ : ℕ) : ℚ) * mu y a₁ b₂ ≤
        ((t + 1 - a₁ : ℕ) : ℚ) * mu y a₁ k :=
      mul_le_mul_of_nonneg_left hμ₁ge (Nat.cast_nonneg _)
    dsimp only at h1
    linarith
  · have hkt : k + 1 ≤ t := by omega
    have h2 := hPS2 t hkt ht2
    dsimp only at h2
    have hsplit : rsum y a₁ (t + 1) =
        rsum y a₁ (k + 1) + rsum y (k + 1) (t + 1) :=
      rsum_split y (by omega) (by omega)
    have hr1 : rsum y a₁ (k + 1) = ((k + 1 - a₁ : ℕ) : ℚ) * mu y a₁ k :=
      (mu_mul y ha₁k).symm
    have hTB : ((t + 1 - (k + 1) : ℕ) : ℚ) ≤ ((b₂ + 1 - (k + 1) : ℕ) : ℚ) := by
      have h : (t + 1 - (k + 1) : ℕ) ≤ (b₂ + 1 - (k + 1) : ℕ) := by omega
      exact_mod_cast h
    have hcastT : ((t + 1 - a₁ : ℕ) : ℚ) =
        ((k + 1 - a₁ : ℕ) : ℚ) + ((t + 1 - (k + 1) : ℕ) : ℚ) := by
      have h : (t + 1 - a₁ : ℕ) = (k + 1 - a₁) + (t + 1 - (k + 1)) := by omega
      rw [h]
      push_cast
      ring
    have hprod : 0 ≤ (((b₂ + 1 - (k + 1) : ℕ) : ℚ) - ((t + 1 - (k + 1) : ℕ) : ℚ)) *
        (mu y a₁ b₂ - mu y (k + 1) b₂) :=
      mul_nonneg (by linarith) (by linarith)
    have hkey : (((k + 1 - a₁ : ℕ) : ℚ) + ((t + 1 - (k + 1) : ℕ) : ℚ)) *
          mu y a₁ b₂ ≤
        ((k + 1 - a₁ : ℕ) : ℚ) * mu y a₁ k +
          ((t + 1 - (k + 1) : ℕ) : ℚ) * mu y (k + 1) b₂ := by
      nlinarith [hprod, hmean]
    rw [hcastT, hsplit, hr1]
    linarith

/-- One PAV pooling step preserves the invariant and removes exactly one
level set. -/
theorem pavUpdate_inv {y v : List ℚ} {L P : List (ℕ × ℕ)} {k : ℕ}
    (hinv : PavInv y v L P) (hviol : findViol v = some k) :
    ∃ P', PavInv y (pavUpdate v L k).1 (pavUpdate v L k).2 P' ∧
      P'.length + 1 = P.length := by
  obtain ⟨hvl, hLl, hcov, hblocks⟩ := hinv
  obtain ⟨hk1, hklt⟩ := findViol_some hviol
  have hkn : k + 1 < y.length := by rw [← hvl]; exact hk1
  obtain ⟨pre, a₁, b₁, post, hPeq, ha₁k, hkb₁, hcovpre, hcovpost⟩ :=
    covers_find hcov (Nat.zero_le k) (by omega)
  have hmem1 : (a₁, b₁) ∈ P := by
    rw [hPeq]
    exact List.mem_append_right _ (List.mem_cons_self _ _)
  obtain ⟨hL1, hV1, hPS1⟩ := hblocks _ hmem1
  have hb₁k : k = b₁ := by
    by_contra hne
    have hk1b : k + 1 ≤ b₁ := by omega
    have e1 : v.getD k 0 = mu y a₁ b₁ := hV1 k ha₁k hkb₁
    have e2 : v.getD (k + 1) 0 = mu y a₁ b₁ := hV1 (k + 1) (by omega) hk1b
    rw [e1, e2] at hklt
    exact lt_irrefl _ hklt
  subst hb₁k
  obtain ⟨b₂, post₂, rfl, hk1b₂, hcovpost₂⟩ :
      ∃ b₂ post₂, post = (k + 1, b₂) :: post₂ ∧ k + 1 ≤ b₂ ∧
        covers (b₂ + 1) y.length post₂ := by
    cases post with
    | nil =>
        have h : k + 1 = y.length := hcovpost
        omega
    | cons q post₂ =>
        obtain ⟨a₂, b₂⟩ := q
        obtain ⟨rfl, hb, hrest⟩ := hcovpost
        exact ⟨b₂, post₂, rfl, hb, hrest⟩
  have hmem2 : (k + 1, b₂) ∈ P := by
    rw [hPeq]
    exact List.mem_append_right _
      (List.mem_cons_of_mem _ (List.mem_cons_self _ _))
  obtain ⟨hL2, hV2, hPS2⟩ := hblocks _ hmem2
  have hstart : (L.getD k (0, 0)).1 = a₁ := by
    rw [hL1 k ha₁k (le_refl k)]
  have hlast : (L.getD (k + 1) (0, 0)).2 = b₂ := by
    rw [hL2 (k + 1) (le_refl _) hk1b₂]
  have hb₂n : b₂ < y.length := by
    have := covers_le hcovpost₂
    omega
  have hμlt : mu y (k + 1) b₂ < mu y a₁ k := by
    have e1 : v.getD k 0 = mu y a₁ k := hV1 k ha₁k (le_refl k)
    have e2 : v.getD (k + 1) 0 = mu y (k + 1) b₂ := hV2 (k + 1) (le_refl _) hk1b₂
    rw [e1, e2] at hklt
    exact hklt
  obtain ⟨hPSm, hμ₂le, hμ₁ge⟩ := blockPS_merge ha₁k hk1b₂ hPS1 hPS2 hμlt
  have hsum : rsum v a₁ (b₂ + 1) = rsum y a₁ (b₂ + 1) := by
    have h1 : rsum v a₁ (k + 1) = ((k + 1 - a₁ : ℕ) : ℚ) * mu y a₁ k :=
      rsum_const (fun i hi1 hi2 => hV1 i hi1 (by omega))
    have h2 : rsum v (k + 1) (b₂ + 1) =
        ((b₂ + 1 - (k + 1) : ℕ) : ℚ) * mu y (k + 1) b₂ :=
      rsum_const (fun i hi1 hi2 => hV2 i hi1 (by omega))
    rw [rsum_split v (by omega : a₁ ≤ k + 1) (by omega),
      rsum_split y (by omega : a₁ ≤ k + 1) (by omega), h1, h2,
      mu_mul y ha₁k, mu_mul y hk1b₂]
  have hupd : pavUpdate v L k =
      (updRange a₁ b₂ (mu y a₁ b₂) 0 v, updRange a₁ b₂ (a₁, b₂) 0 L) := by
    unfold pavUpdate
    rw [hstart, hlast, hsum]
    rfl
  refine ⟨pre ++ (a₁, b₂) :: post₂, ⟨?_, ?_, ?_, ?_⟩, ?_⟩
  · rw [hupd]
    dsimp only
    rw [length_updRange]
    exact hvl
  · rw [hupd]
    dsimp only
    rw [length_updRange]
    exact hLl
  · exact covers_append hcovpre ⟨rfl, by omega, hcovpost₂⟩
  · intro p hp
    rcases List.mem_append.mp hp with hp | hp
    · -- untouched block strictly before the merged range
      obtain ⟨_, _, hp2a⟩ := covers_bounds hcovpre p hp
      have hpmem : p ∈ P := by
        rw [hPeq]
        exact List.mem_append_left _ hp
      obtain ⟨hLp, hVp, hPSp⟩ := hblocks _ hpmem
      refine ⟨?_, ?_, hPSp⟩
      · intro i hi1 hi2
        rw [hupd]
        dsimp only
        rw [getD_updRange, if_neg (by omega)]
        exact hLp i hi1 hi2
      · intro i hi1 hi2
        rw [hupd]
        dsimp only
        rw [getD_updRange, if_neg (by omega)]
        exact hVp i hi1 hi2
    · rcases List.mem_cons.mp hp with rfl | hp
      · -- the merged block
        refine ⟨?_, ?_, hPSm⟩
        · intro i hi1 hi2
          rw [hupd]
          dsimp only at hi1 hi2 ⊢
          rw [getD_updRange, if_pos (by rw [hLl]; omega)]
        · intro i hi1 hi2
          rw [hupd]
          dsimp only at hi1 hi2 ⊢
          rw [getD_updRange, if_pos (by rw [hvl]; omega)]
      · -- untouched block strictly after the merged range
        obtain ⟨hp1a, _, _⟩ := covers_bounds hcovpost₂ p hp
        have hpmem : p ∈ P := by
          rw [hPeq]
          exact List.mem_append_right _
            (List.mem_cons_of_mem _ (List.mem_cons_of_mem _ hp))
        obtain ⟨hLp, hVp, hPSp⟩ := hblocks _ hpmem
        refine ⟨?_, ?_, hPSp⟩
        · intro i hi1 hi2
          rw [hupd]
          dsimp only
          rw [getD_updRange, if_neg (by omega)]
          exact hLp i hi1 hi2
        · intro i hi1 hi2
          rw [hupd]
          dsimp only
          rw [getD_updRange, if_neg (by omega)]
          exact hVp i hi1 hi2
  · rw [hPeq]
    simp only [List.length_append, List.length_cons]
    omega

/-- Running the PAV loop with fuel at least `#levelsets - 1` reaches the
monotone exit: each iteration removes one level set and the loop stops as
soon as no adjacent violation remains. -/
theorem pavLoop_inv : ∀ (fuel : ℕ) {y v : List ℚ} {L P : List (ℕ × ℕ)},
    PavInv y v L P → P.length ≤ fuel + 1 →
    ∃ P', PavInv y (pavLoop fuel (v, L)).1 (pavLoop fuel (v, L)).2 P' ∧
      findViol (pavLoop fuel (v, L)).1 = none
  | 0, y, v, L, P, hinv, hlen => by
      cases hfv : findViol v with
      | none => exact ⟨P, hinv, hfv⟩
      | some k =>
          exfalso
          obtain ⟨P', hinv', hlen'⟩ := pavUpdate_inv hinv hfv
          obtain ⟨hk1, _⟩ := findViol_some hfv
          have hP0 : P'.length = 0 := by omega
          obtain ⟨hvl', _, hcov', _⟩ := hinv'
          rw [List.length_eq_zero.mp hP0] at hcov'
          have hzero : (0 : ℕ) = y.length := hcov'
          obtain ⟨hvl, _, _, _⟩ := hinv
          omega
  | fuel + 1, y, v, L, P, hinv, hlen => by
      cases hfv : findViol v with
      | none =>
          have hres : pavLoop (fuel + 1) (v, L) = (v, L) := by
            simp [pavLoop, hfv]
          rw [hres]
          exact ⟨P, hinv, hfv⟩
      | some k =>
          obtain ⟨P', hinv', hlen'⟩ := pavUpdate_inv hinv hfv
          have hres : pavLoop (fuel + 1) (v, L) =
              pavLoop fuel ((pavUpdate v L k).1, (pavUpdate v L k).2) := by
            simp [pavLoop, hfv]
          rw [hres]
          exact pavLoop_inv fuel hinv' (by omega)

/-- C8: the PAV while loop terminates after at most `n - 1` pooling steps:
running the loop of `pav_rocch` with fuel `n - 1` on the sorted targets (with
singleton level sets) already reaches the exit where all adjacent
differences of `v` are non-negative (`findViol = none`, i.e.
`np.all(np.diff(v) >= 0)`), because each pooling step removes exactly one of
the initially `n` level sets. -/
theorem pav_loop_terminates (target score : List ℚ) :
    findViol (pavLoop ((pavSorted target score).length - 1)
      (pavSorted target score,
        singletons 0 (pavSorted target score).length)).1 = none := by
  obtain ⟨P', _, hnone⟩ := pavLoop_inv ((pavSorted target score).length - 1)
    (pav_init_inv (pavSorted target score))
    (by rw [singletons_length]; omega)
  exact hnone

/-- Abel-summation bound: if `w` is non-decreasing on the block and every
partial sum of `g` from the block start is non-negative, then
`Σ w·g ≤ w(last) · Σ g`. -/
theorem abel_bound (w g : ℕ → ℚ) (a : ℕ) :
    ∀ k : ℕ, (∀ i, a ≤ i → i < a + k → w i ≤ w (i + 1)) →
      (∀ t, a < t → t ≤ a + k + 1 → 0 ≤ ∑ i in Finset.Ico a t, g i) →
      ∑ i in Finset.Ico a (a + k + 1), w i * g i ≤
        w (a + k) * ∑ i in Finset.Ico a (a + k + 1), g i
  | 0 => by
      intro _ _
      rw [Nat.add_zero, Finset.sum_Ico_succ_top (le_refl a),
        Finset.sum_Ico_succ_top (le_refl a), Finset.Ico_self]
      simp
  | k + 1 => by
      intro hw hG
      have hIH := abel_bound w g a k (fun i h1 h2 => hw i h1 (by omega))
        (fun t h1 h2 => hG t h1 (by omega))
      have hGpos : 0 ≤ ∑ i in Finset.Ico a (a + k + 1), g i :=
        hG (a + k + 1) (by omega) (by omega)
      have hwstep : w (a + k) ≤ w (a + k + 1) := hw (a + k) (by omega) (by omega)
      have hmul : w (a + k) * (∑ i in Finset.Ico a (a + k + 1), g i) ≤
          w (a + k + 1) * (∑ i in Finset.Ico a (a + k + 1), g i) :=
        mul_le_mul_of_nonneg_right hwstep hGpos
      have hs1 : ∑ i in Finset.Ico a (a + (k + 1) + 1), w i * g i =
          (∑ i in Finset.Ico a (a + k + 1), w i * g i) +
            w (a + k + 1) * g (a + k + 1) := by
        rw [show a + (k + 1) + 1 = (a + k + 1) + 1 from rfl,
          Finset.sum_Ico_succ_top (by omega : a ≤ a + k + 1)]
      have hs2 : ∑ i in Finset.Ico a (a + (k + 1) + 1), g i =
          (∑ i in Finset.Ico a (a + k + 1), g i) + g (a + k + 1) := by
        rw [show a + (k + 1) + 1 = (a + k + 1) + 1 from rfl,
          Finset.sum_Ico_succ_top (by omega : a ≤ a + k + 1)]
      rw [hs1, hs2, show a + (k + 1) = a + k + 1 from rfl]
      nlinarith [hIH, hmul]

/-- Cross-term non-negativity on a single PAV block: for any list `w` that is
non-decreasing (as a list), `Σ_block (w - μ)(μ - y) ≥ 0`. -/
theorem block_cross (y w : List ℚ) {a b : ℕ} (hab : a ≤ b) (hbw : b < w.length)
    (hwmono : List.Chain' (· ≤ ·) w) (hPS : blockPS y (a, b)) :
    0 ≤ ∑ i in Finset.Ico a (b + 1),
        (w.getD i 0 - mu y a b) * (mu y a b - y.getD i 0) := by
  have hGt : ∀ t, a < t → t ≤ b + 1 →
      0 ≤ ∑ i in Finset.Ico a t, (y.getD i 0 - mu y a b) := by
    intro t h1 h2
    have hsub : ∑ i in Finset.Ico a t, (y.getD i 0 - mu y a b) =
        rsum y a t - ((t - a : ℕ) : ℚ) * mu y a b := by
      rw [Finset.sum_sub_distrib, Finset.sum_const, Nat.card_Ico, nsmul_eq_mul]
      rfl
    have hps := hPS (t - 1) (by omega) (by omega)
    dsimp only at hps
    have ht1 : t - 1 + 1 = t := by omega
    rw [ht1] at hps
    rw [hsub]
    linarith
  have habel := abel_bound (fun i => w.getD i 0) (fun i => y.getD i 0 - mu y a b)
    a (b - a)
    (fun i h1 h2 => chain'_le_getD hwmono i (by omega))
    (fun t h1 h2 => hGt t h1 (by omega))
  have hba : a + (b - a) = b := by omega
  rw [hba, show b + 1 = b + 1 from rfl] at habel
  have htot : ∑ i in Finset.Ico a (b + 1), (y.getD i 0 - mu y a b) = 0 := by
    have hsub : ∑ i in Finset.Ico a (b + 1), (y.getD i 0 - mu y a b) =
        rsum y a (b + 1) - ((b + 1 - a : ℕ) : ℚ) * mu y a b := by
      rw [Finset.sum_sub_distrib, Finset.sum_const, Nat.card_Ico, nsmul_eq_mul]
      rfl
    rw [hsub, mu_mul y hab, sub_self]
  have hexp : ∑ i in Finset.Ico a (b + 1),
      (w.getD i 0 - mu y a b) * (mu y a b - y.getD i 0) =
      -(∑ i in Finset.Ico a (b + 1), w.getD i 0 * (y.getD i 0 - mu y a b)) +
        mu y a b * ∑ i in Finset.Ico a (b + 1), (y.getD i 0 - mu y a b) := by
    rw [← Finset.sum_neg_distrib, Finset.mul_sum, ← Finset.sum_add_distrib]
    exact Finset.sum_congr rfl (fun i _ => by ring)
  rw [hexp, htot, mul_zero, add_zero]
  rw [htot] at habel
  simp only [mul_zero] at habel
  linarith

/-- Splitting an index-range sum along a tiling by blocks. -/
theorem covers_sum (F : ℕ → ℚ) : ∀ {P : List (ℕ × ℕ)} {s e : ℕ},
    covers s e P →
    ∑ i in Finset.Ico s e, F i =
      (P.map (fun p => ∑ i in Finset.Ico p.1 (p.2 + 1), F i)).sum
  | [], s, e, h => by
      obtain rfl : s = e := h
      simp
  | (a, b) :: rest, s, e, h => by
      obtain ⟨rfl, hb, hrest⟩ := h
      rw [List.map_cons, List.sum_cons, ← covers_sum F hrest,
        ← Finset.sum_Ico_consecutive F (show a ≤ b + 1 by omega)
          (covers_le hrest)]

theorem list_sum_nonneg : ∀ {l : List ℚ}, (∀ x ∈ l, 0 ≤ x) → 0 ≤ l.sum
  | [], _ => le_refl 0
  | x :: l, h => by
      rw [List.sum_cons]
      have h1 := h x (List.mem_cons_self x l)
      have h2 := list_sum_nonneg (fun b hb => h b (List.mem_cons_of_mem x hb))
      linarith

/-- Any state satisfying the PAV invariant minimises the sum of squared
errors to `y` among monotone sequences of the same length. -/
theorem pav_optimal {y v : List ℚ} {L P : List (ℕ × ℕ)} (hinv : PavInv y v L P)
    (w : List ℚ) (hwlen : w.length = y.length)
    (hwmono : List.Chain' (· ≤ ·) w) :
    sse y v ≤ sse y w := by
  obtain ⟨hvl, hLl, hcov, hblocks⟩ := hinv
  have hdiff : sse y w - sse y v =
      (∑ i in Finset.range y.length, (w.getD i 0 - v.getD i 0) ^ 2) +
        2 * ∑ i in Finset.range y.length,
          (w.getD i 0 - v.getD i 0) * (v.getD i 0 - y.getD i 0) := by
    unfold sse
    rw [← Finset.sum_sub_distrib, Finset.mul_sum, ← Finset.sum_add_distrib]
    exact Finset.sum_congr rfl (fun i _ => by ring)
  have hsq : 0 ≤ ∑ i in Finset.range y.length, (w.getD i 0 - v.getD i 0) ^ 2 :=
    Finset.sum_nonneg (fun i _ => sq_nonneg _)
  have hcross : 0 ≤ ∑ i in Finset.range y.length,
      (w.getD i 0 - v.getD i 0) * (v.getD i 0 - y.getD i 0) := by
    rw [Finset.range_eq_Ico, covers_sum _ hcov]
    apply list_sum_nonneg
    intro x hx
    obtain ⟨p, hp, rfl⟩ := List.mem_map.mp hx
    obtain ⟨_, hab, hbe⟩ := covers_bounds hcov p hp
    obtain ⟨hLp, hVp, hPSp⟩ := hblocks p hp
    have hcongr : ∑ i in Finset.Ico p.1 (p.2 + 1),
        (w.getD i 0 - v.getD i 0) * (v.getD i 0 - y.getD i 0) =
        ∑ i in Finset.Ico p.1 (p.2 + 1),
          (w.getD i 0 - mu y p.1 p.2) * (mu y p.1 p.2 - y.getD i 0) :=
      Finset.sum_congr rfl (fun i hi => by
        have h2 := (Finset.mem_Ico.mp hi).2
        rw [hVp i (Finset.mem_Ico.mp hi).1 (by omega)])
    rw [hcongr]
    exact block_cross y w hab (by omega) hwmono hPSp
  linarith

/-- C3: `pav_rocch` returns `(t, v)` with `v` non-decreasing at every
adjacent pair, and among all non-decreasing rational sequences of the same
length `v` minimises the sum of squared errors against `t`, the target
sequence sorted by score ascending — i.e. `v` is the isotonic regression of
the sorted targets. -/
theorem pav_rocch_isotonic (target score w : List ℚ)
    (hwlen : w.length = (pav_rocch target score).1.length)
    (hwmono : List.Chain' (· ≤ ·) w) :
    List.Chain' (· ≤ ·) (pav_rocch target score).2 ∧
      sse (pav_rocch target score).1 (pav_rocch target score).2 ≤
        sse (pav_rocch target score).1 w := by
  obtain ⟨P', hinv', hnone⟩ := pavLoop_inv (pavSorted target score).length
    (pav_init_inv (pavSorted target score))
    (by rw [singletons_length]; omega)
  exact ⟨findViol_none hnone, pav_optimal hinv' w hwlen hwmono⟩

theorem pav_rocch_isotonic_witness :
    List.Chain' (· ≤ ·) (pav_rocch [1, 0] [1, 2]).2 ∧
      sse (pav_rocch [1, 0] [1, 2]).1 (pav_rocch [1, 0] [1, 2]).2 ≤
        sse (pav_rocch [1, 0] [1, 2]).1 [0, 1] :=
  pav_rocch_isotonic [1, 0] [1, 2] [0, 1]
    (by norm_num [pav_rocch, pavSorted, sortLe, insertLe])
    (by norm_num [List.chain'_cons])

end PlotRoc
